import Mathlib

/-!
Verification of the `buttons-generator` server core (`server/server.js`):
the output coercer (`coerceSingleButton`, `sanitizeStyle`, `escapeHtml`,
`escapeAttr`), the token-bucket rate limiter (`rateLimit`), and the request
normalizer (`clampText`, `norm`, `assertClean`).

JavaScript strings are modelled as lists of Unicode scalar values
(`List Char`); the regular expressions used by the code are modelled by
executable scanning functions with JavaScript's leftmost-match,
non-overlapping `g`-flag semantics.  Rational numbers stand in for
JavaScript's floating-point arithmetic in the rate limiter.
-/

namespace ButtonsGen

/-- Characters of a JavaScript string, as a list of Unicode scalar values. -/
abbrev Str := List Char

/-- The JavaScript regular-expression class `\s` (also the character set
trimmed by `String.prototype.trim`). -/
def isWsJs (c : Char) : Bool :=
  let n := c.toNat
  n == 32 || n == 9 || n == 10 || n == 11 || n == 12 || n == 13 || n == 160 ||
    n == 5760 || (8192 ≤ n && n ≤ 8202) || n == 8232 || n == 8233 || n == 8239 ||
    n == 8287 || n == 12288 || n == 65279

/-- The JavaScript regular-expression class `\w` = `[A-Za-z0-9_]`. -/
def isWordChar (c : Char) : Bool :=
  ('a' ≤ c && c ≤ 'z') || ('A' ≤ c && c ≤ 'Z') || ('0' ≤ c && c ≤ '9') || c == '_'

/-- The attribute-name class `[a-zA-Z0-9:-]` of the data-attribute regex. -/
def attrNameChar (c : Char) : Bool :=
  ('a' ≤ c && c ≤ 'z') || ('A' ≤ c && c ≤ 'Z') || ('0' ≤ c && c ≤ '9') ||
    c == ':' || c == '-'

/-- JavaScript `String.prototype.split` on a one-character separator:
`''.split(c) = ['']`, and empty segments are kept. -/
def splitOn (sep : Char) : Str → List Str
  | [] => [[]]
  | c :: rest =>
    if c = sep then [] :: splitOn sep rest
    else
      match splitOn sep rest with
      | [] => [[c]]
      | h :: t => (c :: h) :: t

/-- JavaScript `Array.prototype.join` with a string separator. -/
def joinSep (sep : Str) : List Str → Str
  | [] => []
  | [a] => a
  | a :: b :: t => a ++ sep ++ joinSep sep (b :: t)

/-- Drop trailing JavaScript whitespace. -/
def trimEnd : Str → Str
  | [] => []
  | c :: rest =>
    match trimEnd rest with
    | [] => if isWsJs c then [] else [c]
    | r => c :: r

/-- JavaScript `String.prototype.trim`. -/
def trimChars (s : Str) : Str := trimEnd (s.dropWhile isWsJs)

/-- JavaScript `String.prototype.toLowerCase`, restricted to the ASCII range
(`Char.toLower`); the strings it is compared against are all ASCII. -/
def toLowerStr (s : Str) : Str := s.map Char.toLower

/-- Match a lower-case needle case-insensitively at the head of `s`,
returning the remainder on success. -/
def stripPrefixCI : Str → Str → Option Str
  | [], s => some s
  | _ :: _, [] => none
  | a :: as, b :: bs => if b.toLower = a then stripPrefixCI as bs else none

/-- Does some suffix of the string satisfy `p`?  (Left-to-right scan.) -/
def existsSuffix (p : Str → Bool) : Str → Bool
  | [] => p []
  | c :: rest => p (c :: rest) || existsSuffix p rest

/-- Case-insensitive substring test (needle given in lower case). -/
def containsCI (w : Str) (s : Str) : Bool :=
  existsSuffix (fun t => (stripPrefixCI w t).isSome) s

/-- Case-sensitive prefix test. -/
def startsWithStr : Str → Str → Bool
  | [], _ => true
  | _ :: _, [] => false
  | a :: as, b :: bs => a = b && startsWithStr as bs

/-- Case-sensitive substring test. -/
def containsSub (w : Str) (s : Str) : Bool := existsSuffix (startsWithStr w) s

/-! ### The style sanitizer `sanitizeStyle` -/

def urlW : Str := "url".data

def importantW : Str := "!important".data

def expressionW : Str := "expression".data

def javascriptW : Str := "javascript:".data

def urlParenW : Str := "url(".data

def expressionParenW : Str := "expression(".data

/-- Does the string start with the given character? -/
def headIsChar (x : Char) : Str → Bool
  | [] => false
  | c :: _ => c = x

/-- Match of `tok` followed by `\s*` and `(` at the head of a string
(the shape of the deny regexes `/url\s*\(/i` and `/expression\s*\(/i`). -/
def tokParenAt (w : Str) (s : Str) : Bool :=
  match stripPrefixCI w s with
  | some r => headIsChar '(' (r.dropWhile isWsJs)
  | none => false

/-- Test of `/tok\s*\(/i` anywhere in the string. -/
def hasTokParen (w : Str) (s : Str) : Bool := existsSuffix (tokParenAt w) s

/-- The four per-value deny tests of `sanitizeStyle`. -/
def denyVal (v : Str) : Bool :=
  hasTokParen urlW v || containsCI importantW v || hasTokParen expressionW v ||
    containsCI javascriptW v

/-- The fixed allow-list of style property names. -/
def allowProps : List Str :=
  ["background".data, "background-color".data, "color".data, "font-size".data,
    "padding".data, "border".data, "border-radius".data, "box-shadow".data,
    "letter-spacing".data, "text-transform".data, "min-width".data,
    "min-height".data, "width".data, "height".data]

/-- Processing of one `;`-separated rule by `sanitizeStyle`: destructure
`rule.split(':')` into its first two segments (further segments are
discarded), check both are non-empty, trim and lower-case the property,
check the allow-list, trim the value, and apply the deny tests. -/
def sanitizeRule (rule : Str) : Str :=
  match splitOn ':' rule with
  | [] => []
  | [_] => []
  | prop :: rawVal :: _ =>
    if prop = [] then []
    else if rawVal = [] then []
    else
      let p := toLowerStr (trimChars prop)
      if p ∈ allowProps then
        let v := trimChars rawVal
        if denyVal v then [] else p ++ ':' :: ' ' :: v
      else []

def sepSemiSp : Str := [';', ' ']

/-- The server's `sanitizeStyle`: split on `;`, trim, drop empties, filter
each rule, drop the rejected ones and re-join with `"; "`. -/
def sanitizeStyle (style : Str) : Str :=
  joinSep sepSemiSp
    ((((splitOn ';' style).map trimChars).filter (fun d => d ≠ [])).map sanitizeRule
      |>.filter (fun d => d ≠ []))

/-! ### The HTML escapers -/

/-- JavaScript `String.prototype.replace` with a global one-character
pattern and a plain replacement string. -/
def replaceAllChar (c : Char) (r : Str) : Str → Str
  | [] => []
  | a :: s => (if a = c then r else [a]) ++ replaceAllChar c r s

def ampW : Str := "&amp;".data

def ltW : Str := "&lt;".data

def gtW : Str := "&gt;".data

def quotW : Str := "&quot;".data

def aposW : Str := "&#39;".data

/-- The server's `escapeHtml`: successive global replacements of
`&`, `<`, `>`, `"`, `'`, in that order. -/
def escapeHtml (s : Str) : Str :=
  replaceAllChar '\'' aposW
    (replaceAllChar '"' quotW
      (replaceAllChar '>' gtW
        (replaceAllChar '<' ltW
          (replaceAllChar '&' ampW s))))

/-- The server's `escapeAttr`: successive global replacements of
`&`, `"`, `<`, in that order. -/
def escapeAttr (s : Str) : Str :=
  replaceAllChar '<' ltW
    (replaceAllChar '"' quotW
      (replaceAllChar '&' ampW s))

/-! ### The data-attribute harvest

The regex `/\s([a-zA-Z0-9:-]+)="([^"]*)"/g` is deterministic: because `=`
is not in the name class and `"` is not in the value class, the greedy
quantifiers never backtrack.  A match at a position is a whitespace
character, a maximal non-empty run of name characters, `="`, the value up
to the next `"`, and that quote. -/

/-- Attempt a match of the data-attribute regex anchored at the head of the
string; on success return the two capture groups and the remainder of the
string after the match. -/
def matchAttrHead (s : Str) : Option ((Str × Str) × Str) :=
  match s with
  | [] => none
  | c :: rest =>
    if isWsJs c then
      if rest.takeWhile attrNameChar = [] then none
      else
        match rest.dropWhile attrNameChar with
        | e :: q :: r3 =>
          if e = '=' ∧ q = '"' then
            if r3.dropWhile (fun d => d ≠ '"') = [] then none
            else some ((rest.takeWhile attrNameChar, r3.takeWhile (fun d => d ≠ '"')),
              (r3.dropWhile (fun d => d ≠ '"')).drop 1)
          else none
        | _ => none
    else none

/-- Fuel-indexed left-to-right non-overlapping scan (`String.prototype.matchAll`). -/
def collectAttrsF : Nat → Str → List (Str × Str)
  | 0, _ => []
  | _ + 1, [] => []
  | fuel + 1, c :: rest =>
    match matchAttrHead (c :: rest) with
    | some (p, r) => p :: collectAttrsF fuel r
    | none => collectAttrsF fuel rest

/-- All matches of the attribute regex, leftmost-first and non-overlapping. -/
def collectAttrs (s : Str) : List (Str × Str) := collectAttrsF s.length s

/-! ### The button-fragment regex `/<button\b[\s\S]*?<\/button>/gi` -/

def openW : Str := "<button".data

def closeW : Str := "</button>".data

/-- Word-boundary test after `<button`: the next character, if any, is not
a word character. -/
def boundaryAfterOpen : Str → Bool
  | [] => true
  | c :: _ => !(isWordChar c)

/-- Lazy search for the closing tag: consume characters until the first
case-insensitive occurrence of `</button>`, returning the consumed text
(closing tag included, original spelling preserved) and the remainder. -/
def findClose : Str → Option (Str × Str)
  | [] => none
  | c :: rest =>
    match stripPrefixCI closeW (c :: rest) with
    | some r => some ((c :: rest).take closeW.length, r)
    | none =>
      match findClose rest with
      | some (frag, r) => some (c :: frag, r)
      | none => none

/-- Attempt a match of the button regex anchored at the head of the string:
`<button` case-insensitively, a word boundary, then the lazy body up to and
including the first `</button>`. -/
def matchButtonAt (s : Str) : Option (Str × Str) :=
  match stripPrefixCI openW s with
  | none => none
  | some r =>
    if boundaryAfterOpen r then
      match findClose r with
      | some (frag, rest) => some (s.take openW.length ++ frag, rest)
      | none => none
    else none

/-- Fuel-indexed global scan for button fragments. -/
def buttonMatchesF : Nat → Str → List Str
  | 0, _ => []
  | _ + 1, [] => []
  | fuel + 1, c :: rest =>
    match matchButtonAt (c :: rest) with
    | some (frag, r) => frag :: buttonMatchesF fuel r
    | none => buttonMatchesF fuel rest

/-- All matches of `/<button\b[\s\S]*?<\/button>/gi`, leftmost-first and
non-overlapping: the list bound to `matches` in `coerceSingleButton`. -/
def buttonMatches (s : Str) : List Str := buttonMatchesF s.length s

/-! ### The style-attribute capture `/style="([^"]*)"/i` -/

def styleEqW : Str := "style=\"".data

/-- Attempt the style-attribute regex at the head of the string, returning
the capture group (the value up to the next `"`, which must exist). -/
def styleCapAt (s : Str) : Option Str :=
  match stripPrefixCI styleEqW s with
  | none => none
  | some r =>
    if r.dropWhile (fun d => d ≠ '"') = [] then none
    else some (r.takeWhile (fun d => d ≠ '"'))

/-- First match of `/style="([^"]*)"/i` in the fragment, defaulting to the
empty string — the expression `(btnTag.match(/style="([^"]*)"/i) || [])[1] || ''`. -/
def styleAttrOf : Str → Str
  | [] => []
  | c :: rest =>
    match styleCapAt (c :: rest) with
    | some v => v
    | none => styleAttrOf rest

/-! ### The empty-label default declarations -/

def paddingW : Str := "padding".data

def borderW : Str := "border".data

def backgroundW : Str := "background".data

def backgroundColorW : Str := "background-color".data

def dashColorW : Str := "-color".data

/-- Match of `\s*:` at the head of a string. -/
def tokColonTail (r : Str) : Bool := headIsChar ':' (r.dropWhile isWsJs)

/-- Match of `tok\s*:` (tok case-insensitive) at the head of a string. -/
def tokColonAt (w : Str) (s : Str) : Bool :=
  match stripPrefixCI w s with
  | some r => tokColonTail r
  | none => false

/-- Match of `background(-color)?\s*:` at the head of a string. -/
def bgColonAt (s : Str) : Bool :=
  match stripPrefixCI backgroundW s with
  | some r =>
    tokColonTail r ||
      (match stripPrefixCI dashColorW r with
       | some r2 => tokColonTail r2
       | none => false)
  | none => false

/-- Word-boundary test for the previous character (`none` = string start). -/
def boundOk : Option Char → Bool
  | none => true
  | some p => !(isWordChar p)

/-- Scan for a position with a word boundary before it where `hit` matches:
the shape of the tests `/\bpadding\s*:/i`, `/\bborder\s*:/i`,
`/\bbackground(-color)?\s*:/i`. -/
def scanBound (hit : Str → Bool) : Option Char → Str → Bool
  | _, [] => false
  | prev, c :: rest => (boundOk prev && hit (c :: rest)) || scanBound hit (some c) rest

def hasPaddingTest (s : Str) : Bool := scanBound (tokColonAt paddingW) none s

def hasBorderTest (s : Str) : Bool := scanBound (tokColonAt borderW) none s

def hasBgTest (s : Str) : Bool := scanBound bgColonAt none s

def padDecl : Str := "padding: 10px 16px".data

def borderDecl : Str := "border: 1px solid #ccc".data

def bgDecl : Str := "background-color: #f7f7f7".data

def padVal : Str := "10px 16px".data

def borderVal : Str := "1px solid #ccc".data

def bgVal : Str := "#f7f7f7".data

/-- The list `additions` built by the empty-label branch of
`coerceSingleButton`. -/
def additionsOf (safeStyle : Str) : List Str :=
  (if hasPaddingTest safeStyle then [] else [padDecl]) ++
    (if hasBorderTest safeStyle then [] else [borderDecl]) ++
    (if trimChars safeStyle = [] && !hasBgTest safeStyle then [bgDecl] else [])

/-- The empty-label visibility defaults of `coerceSingleButton`: when the
label is empty, add `padding`, `border` and possibly `background-color`
declarations unless matching ones survived sanitization. -/
def addDefaults (safeStyle : Str) : Str :=
  if additionsOf safeStyle = [] then safeStyle
  else joinSep sepSemiSp
    (([safeStyle, joinSep sepSemiSp (additionsOf safeStyle)]).filter (fun d => d ≠ []))

/-! ### Assembly of the output button -/

def dataDashW : Str := "data-".data

/-- The filter `name.toLowerCase().startsWith('data-')`. -/
def startsWithData (n : Str) : Bool := startsWithStr dataDashW (toLowerStr n)

/-- One emitted attribute, `name="escapedValue"`. -/
def attrText (n v : Str) : Str := n ++ '=' :: '"' :: (escapeAttr v ++ ['"'])

/-- The harvested data-attribute pairs of a fragment. -/
def dataPairsOf (btnTag : Str) : List (Str × Str) :=
  (collectAttrs btnTag).filter (fun p => startsWithData p.1)

/-- The joined `dataAttrs` string of `coerceSingleButton`. -/
def dataAttrsStr (btnTag : Str) : Str :=
  joinSep [' '] ((dataPairsOf btnTag).map (fun p => attrText p.1 p.2))

/-- The final `safeStyle` value: the sanitized style attribute, with the
empty-label defaults added when the label is empty or all-whitespace
(`!exactText || !String(exactText).trim()`). -/
def styleValueOf (btnTag exactText : Str) : Str :=
  let safe0 := sanitizeStyle (styleAttrOf btnTag)
  if trimChars exactText = [] then addDefaults safe0 else safe0

def typeW : Str := "type=\"button\"".data

def openSpW : Str := "<button ".data

/-- The `style="..."` attribute text. -/
def stylePieceOf (s : Str) : Str := styleEqW ++ (s ++ ['"'])

/-- The space-joined attribute text of the output: the style attribute if
non-empty, the data attributes, and `type="button"`, with empty pieces
dropped. -/
def attrsOf (btnTag exactText : Str) : Str :=
  joinSep [' ']
    (([if styleValueOf btnTag exactText = [] then []
        else stylePieceOf (styleValueOf btnTag exactText),
        dataAttrsStr btnTag, typeW]).filter (fun d => d ≠ []))

/-- Assembly of the output for a chosen fragment: the attribute list
wrapped in `<button ...>` with the escaped label. -/
def buildButton (btnTag exactText : Str) : Str :=
  openSpW ++ (attrsOf btnTag exactText ++ ('>' :: (escapeHtml exactText ++ closeW)))

def errNoButton : String := "Model did not return a <button>"

instance decEqExceptStr : DecidableEq (Except String Str) := fun x y =>
  match x, y with
  | .ok a, .ok b =>
    if h : a = b then isTrue (by rw [h]) else isFalse (by simp [h])
  | .error a, .error b =>
    if h : a = b then isTrue (by rw [h]) else isFalse (by simp [h])
  | .ok _, .error _ => isFalse (by simp)
  | .error _, .ok _ => isFalse (by simp)

/-- The server's `coerceSingleButton`: extract the button fragments, fail
if there are none, and build the output from the first. -/
def coerceSingleButton (html exactText : Str) : Except String Str :=
  match buttonMatches html with
  | [] => .error errNoButton
  | btnTag :: _ => .ok (buildButton btnTag exactText)

/-! ### The token-bucket rate limiter `rateLimit`

Numbers are modelled as rationals; time stamps are rationals
(milliseconds).  One limiter invocation on an existing bucket is the body
of `limiter` from the lazy refill on: the bucket-creation path assigns
`{ tokens: max, updatedAt: now }` and falls through to the same code. -/

structure Bucket where
  tokens : ℚ
  updatedAt : ℚ
  deriving DecidableEq, Repr

/-- A freshly created bucket: `{ tokens: max, updatedAt: now }`. -/
def newBucket (capacity now : ℚ) : Bucket := { tokens := capacity, updatedAt := now }

/-- The lazily refilled token count:
`Math.min(max, b.tokens + elapsed * refillRate)` with
`refillRate = max / windowMs`. -/
def refillTokens (capacity windowMs : ℚ) (b : Bucket) (now : ℚ) : ℚ :=
  min capacity (b.tokens + (now - b.updatedAt) * (capacity / windowMs))

/-- One limiter invocation on an existing bucket: refill, then either
reject with `Retry-After = Math.ceil((1 - tokens) / refillRate / 1000)`
seconds (`some retry`), or spend one token and admit (`none`). -/
def limiterStep (capacity windowMs : ℚ) (b : Bucket) (now : ℚ) : Bucket × Option ℤ :=
  let t1 := refillTokens capacity windowMs b now
  if t1 < 1 then
    ({ tokens := t1, updatedAt := now }, some ⌈(1 - t1) / (capacity / windowMs) / 1000⌉)
  else
    ({ tokens := t1 - 1, updatedAt := now }, none)

/-! ### The request normalizer: `clampText`, `norm`, `assertClean`

Unicode NFKC normalization (`String.prototype.normalize('NFKC')`) is an
opaque library routine; the definitions take it as an explicit function
parameter `nfkc`, and theorems quantify over it. -/

/-- Control characters `[\u0000-\u001F\u007F]`. -/
def isCtl (c : Char) : Bool := c.toNat ≤ 31 || c.toNat == 127

/-- Newline, carriage return, tab. -/
def isNRT (c : Char) : Bool := c == '\n' || c == '\r' || c == '\t'

/-- Replacement of `[\n\r\t]` by a space. -/
def replNRT (s : Str) : Str := s.map (fun c => if isNRT c then ' ' else c)

/-- Replacement of `[\u0000-\u001F\u007F]` by a space. -/
def replCtl (s : Str) : Str := s.map (fun c => if isCtl c then ' ' else c)

/-- The server's `clampText`: replace `[\n\r\t]` by spaces, then truncate
to 200 characters. -/
def clampText (t : Str) : Str := (replNRT t).take 200

/-- The server's `norm`: NFKC-normalize, replace control characters by
spaces, trim. -/
def normStr (nfkc : Str → Str) (s : Str) : Str := trimChars (replCtl (nfkc s))

def scriptW : Str := "script".data

def onW : Str := "on".data

def dataColonW : Str := "data:".data

def textHtmlW : Str := "text/html".data

/-- Deny pattern `/<\s*script/i` at the head of a string. -/
def scriptAt (s : Str) : Bool :=
  match s with
  | '<' :: r => (stripPrefixCI scriptW (r.dropWhile isWsJs)).isSome
  | _ => false

/-- Deny pattern `/on\w+\s*=/i` at the head of a string. -/
def onHandlerAt (s : Str) : Bool :=
  match stripPrefixCI onW s with
  | some r =>
    if r.takeWhile isWordChar = [] then false
    else
      match (r.dropWhile isWordChar).dropWhile isWsJs with
      | '=' :: _ => true
      | _ => false
  | none => false

/-- Deny pattern `/data:\s*text\/html/i` at the head of a string. -/
def dataHtmlAt (s : Str) : Bool :=
  match stripPrefixCI dataColonW s with
  | some r => (stripPrefixCI textHtmlW (r.dropWhile isWsJs)).isSome
  | none => false

/-- The `DENY` list of `assertClean`: script tags, `on*=` handlers,
`javascript:`, `data:text/html`, `url(`, `expression(`. -/
def denyTest (s : Str) : Bool :=
  existsSuffix scriptAt s || existsSuffix onHandlerAt s || containsCI javascriptW s ||
    existsSuffix dataHtmlAt s || containsCI urlParenW s || hasTokParen expressionW s

/-- The server's `assertClean`: normalize, truncate to `maxLen`, and fail
when a deny pattern matches. -/
def assertClean (nfkc : Str → Str) (v : Str) (maxLen : Nat) : Option Str :=
  let s := (normStr nfkc v).take maxLen
  if denyTest s then none else some s

/-- The full normalization of the `text` field on the `/api/generate`
route: `assertClean('text', clampText(text), 200)`. -/
def textNorm (nfkc : Str → Str) (t : Str) : Option Str :=
  assertClean nfkc (clampText t) 200

/-- Modelled from the claim's words, for comparison with `textNorm`: in
order, replace newline/carriage-return/tab by a space, NFKC-normalize,
strip control characters, trim, truncate to 200 characters. -/
def claimTextPipeline (nfkc : Str → Str) (t : Str) : Str :=
  ((trimChars ((nfkc (replNRT t)).filter (fun c => !isCtl c))).take 200)

/-! ### Observation functions for the emitted strings

These interpret an emitted style string the way the spec reads it: the
declarations are the `;`-separated segments, trimmed, empties dropped; a
declaration's property name is the text before its first `:`, its value
the trimmed text after it. -/

/-- The declarations of a style string. -/
def declsOf (s : Str) : List Str :=
  ((splitOn ';' s).map trimChars).filter (fun d => d ≠ [])

/-- The property name of a declaration: the text before the first `:`. -/
def propNameOf (d : Str) : Str := d.takeWhile (fun c => c ≠ ':')

/-- The value of a declaration: the trimmed text after the first `:`. -/
def valueTextOf (d : Str) : Str := trimChars ((d.dropWhile (fun c => c ≠ ':')).drop 1)

/-- Scan of an emitted element that skips the start tag: quote-aware search
for the first `>` outside of quoted attribute values. -/
def afterTagEnd : Str → Bool → Str
  | [], _ => []
  | c :: rest, inQ =>
    if c = '"' then afterTagEnd rest (!inQ)
    else if c = '>' && !inQ then rest
    else afterTagEnd rest inQ

/-- The inner text of an emitted element: everything between the start
tag's closing `>` and the following `<`. -/
def innerTextOf (s : Str) : Str := (afterTagEnd s false).takeWhile (fun c => c ≠ '<')

/-- State tracking for `afterTagEnd`: the quote state after scanning a
string, or `none` if an unquoted `>` is hit. -/
def scanQuote : Str → Bool → Option Bool
  | [], q => some q
  | c :: rest, q =>
    if c = '"' then scanQuote rest (!q)
    else if c = '>' && !q then none
    else scanQuote rest q

/-! ### Concrete inputs used by witness and counterexample theorems -/

/-- Shape of one surviving sanitized declaration. -/
def GoodDecl (d : Str) : Prop :=
  ∃ p v, p ∈ allowProps ∧ trimChars v = v ∧ ':' ∉ v ∧ ';' ∉ v ∧ denyVal v = false ∧
    d = p ++ ':' :: ' ' :: v

def wit1Style : Str := "color:red; background:url(x); width: 5px".data

def wit1Decl : Str := "color: red".data

def cex8Input : Str := List.replicate 100 ' ' ++ List.replicate 150 'a'

def wit4Html : Str := "<button>a</button> and <button>b</button>".data

def wit4Text : Str := "x".data

def wit4Frag1 : Str := "<button>a</button>".data

def wit4Frag2 : Str := "<button>b</button>".data

/-- A well-formed whitespace-preceded `name="value"` attribute pair whose
name lower-cases to start with `data-`, occurring at some position of the
string (the reading of "a data attribute pair appears in the fragment"). -/
def occursDataPair (s : Str) : Bool :=
  existsSuffix (fun t =>
    match matchAttrHead t with
    | some (p, _) => startsWithData p.1
    | none => false) s

def cex9Html : Str := "<button a=\"b data-x=\" y\"></button>".data

def cex9Text : Str := "T".data

def cex9Out : Str := "<button type=\"button\">T</button>".data

def wit9Html : Str := "<button data-a=\"1\"><i data-b=\"2\">z</i></button>".data

def wit9Text : Str := "L".data

def wit9NameB : Str := "data-b".data

def wit9ValB : Str := "2".data

def wit2Html : Str := "<button style=\"color:red\">model label</button>".data

def wit2Text : Str := "a<b".data

def wit2Out : Str := "<button style=\"color: red\" type=\"button\">a&lt;b</button>".data

def wit5Html : Str := "<button style=\"color:red\">model</button>".data

def wit5Text : Str := "  ".data

/-! ### Idempotence: inputs and the attribute inventory of an output -/

def cex3Html : Str := "<button data-a=\"&\">T</button>".data

def cex3Text : Str := "T".data

def cex3Out1 : Str := "<button data-a=\"&amp;\" type=\"button\">T</button>".data

def cex3Out2 : Str := "<button data-a=\"&amp;amp;\" type=\"button\">T</button>".data

def wit3Html : Str := "<button style=\"color:red\" data-a=\"x\">Go</button>".data

def wit3Text : Str := "Go".data

def wit3Out : Str := "<button style=\"color: red\" data-a=\"x\" type=\"button\">Go</button>".data

def styleNameW : Str := "style".data

def typeNameW : Str := "type".data

def buttonValW : Str := "button".data

/-- One `name="value"` attribute text with a literal (already escaped)
value. -/
def pieceStr (n w : Str) : Str := n ++ '=' :: '"' :: (w ++ ['"'])

/-- The attribute name/value pairs spelled out in the output button, in
order: the style attribute if non-empty, the data attributes with their
escaped values, and `type="button"`. -/
def flatPairsOf (btnTag exactText : Str) : List (Str × Str) :=
  (if styleValueOf btnTag exactText = [] then []
    else [(styleNameW, styleValueOf btnTag exactText)]) ++
    ((dataPairsOf btnTag).map (fun p => (p.1, escapeAttr p.2)) ++
      [(typeNameW, buttonValW)])

/-! ## Toolkit lemmas about the string model -/

theorem splitOn_ne_nil (sep : Char) (s : Str) : splitOn sep s ≠ [] := by
  induction s with
  | nil => simp [splitOn]
  | cons c rest ih =>
    by_cases h : c = sep
    · simp [splitOn, h]
    · cases hs : splitOn sep rest with
      | nil => exact absurd hs ih
      | cons a t => simp [splitOn, h, hs]

theorem splitOn_cons_sep (sep : Char) (y : Str) :
    splitOn sep (sep :: y) = [] :: splitOn sep y := by
  simp [splitOn]

theorem splitOn_cons_ne (sep c : Char) (y : Str) (h : c ≠ sep) (a : Str) (t : List Str)
    (hy : splitOn sep y = a :: t) : splitOn sep (c :: y) = (c :: a) :: t := by
  simp [splitOn, h, hy]

theorem splitOn_append (sep : Char) (x y : Str) (hx : sep ∉ x) (a : Str) (t : List Str)
    (hy : splitOn sep y = a :: t) : splitOn sep (x ++ y) = (x ++ a) :: t := by
  induction x with
  | nil => simpa using hy
  | cons c x ih =>
    have hc : c ≠ sep := fun h => hx (h ▸ List.mem_cons_self c x)
    have hx' : sep ∉ x := fun h => hx (List.mem_cons_of_mem c h)
    have := splitOn_cons_ne sep c (x ++ y) hc (x ++ a) t (ih hx')
    simpa using this

theorem not_mem_of_mem_splitOn (sep : Char) (s : Str) (d : Str)
    (hd : d ∈ splitOn sep s) : sep ∉ d := by
  induction s generalizing d with
  | nil =>
    simp [splitOn] at hd
    simp [hd]
  | cons c rest ih =>
    by_cases h : c = sep
    · subst h
      rw [splitOn_cons_sep] at hd
      rcases List.mem_cons.mp hd with h1 | h1
      · simp [h1]
      · exact ih d h1
    · cases hs : splitOn sep rest with
      | nil => exact absurd hs (splitOn_ne_nil sep rest)
      | cons a t =>
        rw [splitOn_cons_ne sep c rest h a t hs] at hd
        rcases List.mem_cons.mp hd with h1 | h1
        · subst h1
          intro hmem
          rcases List.mem_cons.mp hmem with h2 | h2
          · exact h h2.symm
          · exact ih a (hs ▸ List.mem_cons_self a t) h2
        · exact ih d (hs ▸ List.mem_cons_of_mem a h1)

theorem mem_of_mem_splitOn (sep : Char) (s : Str) (d : Str) (x : Char)
    (hd : d ∈ splitOn sep s) (hx : x ∈ d) : x ∈ s := by
  induction s generalizing d with
  | nil =>
    simp [splitOn] at hd
    subst hd
    simp at hx
  | cons c rest ih =>
    by_cases h : c = sep
    · subst h
      rw [splitOn_cons_sep] at hd
      rcases List.mem_cons.mp hd with h1 | h1
      · subst h1; simp at hx
      · exact List.mem_cons_of_mem _ (ih d h1 hx)
    · cases hs : splitOn sep rest with
      | nil => exact absurd hs (splitOn_ne_nil sep rest)
      | cons a t =>
        rw [splitOn_cons_ne sep c rest h a t hs] at hd
        rcases List.mem_cons.mp hd with h1 | h1
        · subst h1
          rcases List.mem_cons.mp hx with h2 | h2
          · exact h2 ▸ List.mem_cons_self c rest
          · exact List.mem_cons_of_mem _ (ih a (hs ▸ List.mem_cons_self a t) h2)
        · exact List.mem_cons_of_mem _ (ih d (hs ▸ List.mem_cons_of_mem a h1) hx)

theorem joinSep_cons (sep : Str) (a : Str) (l : List Str) (hl : l ≠ []) :
    joinSep sep (a :: l) = a ++ sep ++ joinSep sep l := by
  cases l with
  | nil => exact absurd rfl hl
  | cons b t => rfl

theorem joinSep_append (sep : Str) (l₁ l₂ : List Str) (h₁ : l₁ ≠ []) (h₂ : l₂ ≠ []) :
    joinSep sep (l₁ ++ l₂) = joinSep sep l₁ ++ sep ++ joinSep sep l₂ := by
  induction l₁ with
  | nil => exact absurd rfl h₁
  | cons a t ih =>
    cases t with
    | nil =>
      cases l₂ with
      | nil => exact absurd rfl h₂
      | cons b u => simp [joinSep]
    | cons a' t' =>
      have : joinSep sep ((a :: a' :: t') ++ l₂) = a ++ sep ++ joinSep sep ((a' :: t') ++ l₂) := by
        cases l₂ <;> simp [joinSep]
      rw [this, ih (by simp), joinSep_cons sep a (a' :: t') (by simp)]
      simp

theorem trimEnd_nil : trimEnd [] = [] := rfl

theorem trimEnd_cons_of_ne (c : Char) (s : Str) (r : Str) (hr : trimEnd s = r) (h : r ≠ []) :
    trimEnd (c :: s) = c :: r := by
  cases r with
  | nil => exact absurd rfl h
  | cons a t => simp [trimEnd, hr]

theorem trimEnd_append_of_ne (x v : Str) (h : trimEnd v ≠ []) :
    trimEnd (x ++ v) = x ++ trimEnd v := by
  induction x with
  | nil => simp
  | cons c x ih =>
    have : trimEnd (x ++ v) = x ++ trimEnd v := ih
    rw [List.cons_append, trimEnd_cons_of_ne c (x ++ v) (x ++ trimEnd v) this
      (by simp [h])]
    simp

theorem mem_trimEnd (s : Str) (x : Char) (h : x ∈ trimEnd s) : x ∈ s := by
  induction s with
  | nil => simp [trimEnd] at h
  | cons c rest ih =>
    rcases hr : trimEnd rest with _ | ⟨a, t⟩
    · rw [trimEnd, hr] at h
      by_cases hc : isWsJs c
      · simp [hc] at h
      · simp [hc] at h
        simp [h]
    · rw [trimEnd, hr] at h
      rcases List.mem_cons.mp h with h1 | h1
      · simp [h1]
      · exact List.mem_cons_of_mem _ (ih (hr ▸ h1))

theorem trimEnd_head (w : Str) (c : Char) (t : Str) (h : trimEnd w = c :: t) :
    ∃ w', w = c :: w' := by
  cases w with
  | nil => simp [trimEnd] at h
  | cons a y =>
    rcases hr : trimEnd y with _ | ⟨b, u⟩ <;> rw [trimEnd, hr] at h
    · by_cases ha : isWsJs a
      · simp [ha] at h
      · simp [ha] at h
        exact ⟨y, by rw [h.1]⟩
    · exact ⟨y, by rw [(List.cons_eq_cons.mp h).1]⟩

theorem length_trimEnd_le (s : Str) : (trimEnd s).length ≤ s.length := by
  induction s with
  | nil => simp [trimEnd]
  | cons c rest ih =>
    rcases hr : trimEnd rest with _ | ⟨a, t⟩ <;> rw [trimEnd, hr]
    · by_cases hc : isWsJs c <;> simp [hc]
    · rw [hr] at ih
      simpa using Nat.succ_le_succ ih

theorem trimEnd_last (s : Str) :
    trimEnd s = [] ∨ ∃ y b, trimEnd s = y ++ [b] ∧ isWsJs b = false := by
  induction s with
  | nil => exact Or.inl rfl
  | cons c rest ih =>
    rcases hr : trimEnd rest with _ | ⟨a, t⟩ <;> rw [trimEnd, hr]
    · by_cases hc : isWsJs c
      · exact Or.inl (by simp [hc])
      · exact Or.inr ⟨[], c, by simp [hc], by simpa using hc⟩
    · rcases ih with h | ⟨y, b, hy, hb⟩
      · rw [h] at hr; exact absurd hr (by simp)
      · rw [hr] at hy
        rcases y with _ | ⟨y0, ys⟩
        · rcases List.cons_eq_cons.mp (by simpa using hy) with ⟨h1, h2⟩
          exact Or.inr ⟨[c], b, by simp [h1, h2], hb⟩
        · rcases List.cons_eq_cons.mp (by simpa using hy) with ⟨h1, h2⟩
          exact Or.inr ⟨c :: y0 :: ys, b, by simp [h1, h2], hb⟩

theorem dropWhile_head_false {p : Char → Bool} {l : Str} {c : Char} {t : Str}
    (h : l.dropWhile p = c :: t) : p c = false := by
  induction l with
  | nil => simp at h
  | cons a y ih =>
    by_cases ha : p a
    · rw [List.dropWhile_cons_of_pos ha] at h
      exact ih h
    · rw [List.dropWhile_cons_of_neg ha] at h
      rw [← (List.cons_eq_cons.mp h).1]
      simpa using ha

theorem trimChars_nil : trimChars [] = [] := rfl

theorem trimChars_cons_ws (c : Char) (s : Str) (h : isWsJs c = true) :
    trimChars (c :: s) = trimChars s := by
  unfold trimChars
  rw [List.dropWhile_cons_of_pos h]

theorem trimChars_cons_neg (c : Char) (s : Str) (h : isWsJs c = false) :
    trimChars (c :: s) = trimEnd (c :: s) := by
  unfold trimChars
  rw [List.dropWhile_cons_of_neg (by simp [h])]

theorem mem_trimChars (s : Str) (x : Char) (h : x ∈ trimChars s) : x ∈ s := by
  have h1 : x ∈ s.dropWhile isWsJs := mem_trimEnd _ x h
  exact List.IsSuffix.subset (List.dropWhile_suffix isWsJs) h1

theorem length_trimChars_le (s : Str) : (trimChars s).length ≤ s.length := by
  calc (trimChars s).length ≤ (s.dropWhile isWsJs).length := length_trimEnd_le _
    _ ≤ s.length := (List.IsSuffix.sublist (List.dropWhile_suffix isWsJs)).length_le

theorem trimChars_head (s : Str) (c : Char) (t : Str) (h : trimChars s = c :: t) :
    isWsJs c = false := by
  obtain ⟨w', hw⟩ := trimEnd_head _ c t h
  exact dropWhile_head_false hw

theorem trimChars_fix_head (v : Str) (c : Char) (t : Str) (hfix : trimChars v = v)
    (hv : v = c :: t) : isWsJs c = false :=
  trimChars_head v c t (hfix.trans hv)

theorem trimEnd_eq_self_of_fix (v : Str) (hfix : trimChars v = v) : trimEnd v = v := by
  cases v with
  | nil => rfl
  | cons c t =>
    have hc : isWsJs c = false := trimChars_fix_head (c :: t) c t hfix rfl
    calc trimEnd (c :: t) = trimChars (c :: t) := (trimChars_cons_neg c t hc).symm
      _ = c :: t := hfix

/-- Trimming the output shape of one sanitized declaration: a leading
non-whitespace character, then `: `, then an already-trimmed value. -/
theorem trimChars_decl (c : Char) (p v : Str) (hc : isWsJs c = false)
    (hv : trimChars v = v) :
    trimChars (c :: p ++ ':' :: ' ' :: v) =
      c :: p ++ (if v = [] then [':'] else ':' :: ' ' :: v) := by
  rw [List.cons_append, trimChars_cons_neg _ _ hc, ← List.cons_append]
  cases v with
  | nil =>
    have h2 : trimEnd ([':', ' '] : Str) = [':'] := by decide
    have : (c :: p ++ [':', ' '] : Str) = (c :: p) ++ [':', ' '] := by simp
    simp only [List.cons_append]
    have := trimEnd_append_of_ne (c :: p) [':', ' '] (by rw [h2]; simp)
    rw [h2] at this
    simpa using this
  | cons d t =>
    have hd : isWsJs d = false := trimChars_fix_head (d :: t) d t hv rfl
    have hfix : trimEnd (d :: t) = d :: t := trimEnd_eq_self_of_fix _ hv
    have key : trimEnd ((c :: p ++ [':', ' ']) ++ (d :: t)) =
        (c :: p ++ [':', ' ']) ++ (d :: t) := by
      rw [trimEnd_append_of_ne _ _ (by rw [hfix]; simp), hfix]
    simp only [List.cons_append, List.append_assoc] at key ⊢
    simpa using key

theorem trimChars_idem (s : Str) : trimChars (trimChars s) = trimChars s := by
  rcases h : trimChars s with _ | ⟨c, t⟩
  · rfl
  · have hc : isWsJs c = false := trimChars_head s c t h
    rw [trimChars_cons_neg c t hc]
    rcases trimEnd_last (s.dropWhile isWsJs) with h2 | ⟨y, b, hy, hb⟩
    · have : trimChars s = [] := h2
      rw [this] at h; simp at h
    · have hy' : (c :: t : Str) = y ++ [b] := by
        have : trimChars s = y ++ [b] := hy
        rw [h] at this; exact this
      rw [hy']
      exact trimEnd_append_of_ne y [b] (by simp [trimEnd, hb]) |>.trans
        (by simp [trimEnd, hb])

theorem toNat_ofNat_valid (n : Nat) (h1 : 97 ≤ n) (h2 : n ≤ 122) :
    (Char.ofNat n).toNat = n := by
  have hv : n.isValidChar := Or.inl (by omega)
  unfold Char.ofNat
  rw [dif_pos hv]
  unfold Char.ofNatAux Char.toNat
  simp [UInt32.toNat, UInt32.ofNat', BitVec.toNat_ofNatLt]

/-- ASCII lower-casing can only produce a character in `a`–`z` or leave its
argument unchanged. -/
theorem toLower_eq_of_target (c x : Char) (hx : ¬(97 ≤ x.toNat ∧ x.toNat ≤ 122))
    (h : c.toLower = x) : c = x := by
  unfold Char.toLower at h
  simp only at h
  by_cases hcond : c.toNat ≥ 65 ∧ c.toNat ≤ 90
  · rw [if_pos hcond] at h
    exfalso
    apply hx
    rw [← h, toNat_ofNat_valid (c.toNat + 32) (by omega) (by omega)]
    omega
  · rw [if_neg hcond] at h
    exact h

theorem stripPrefixCI_some (w s r : Str) (h : stripPrefixCI w s = some r) :
    ∃ m, s = m ++ r ∧ m.map Char.toLower = w := by
  induction w generalizing s with
  | nil =>
    refine ⟨[], ?_, rfl⟩
    simpa [stripPrefixCI] using h
  | cons a as ih =>
    cases s with
    | nil => simp [stripPrefixCI] at h
    | cons b bs =>
      by_cases hb : b.toLower = a
      · rw [stripPrefixCI, if_pos hb] at h
        obtain ⟨m, hm1, hm2⟩ := ih bs h
        exact ⟨b :: m, by simp [hm1], by simp [hm2, hb]⟩
      · rw [stripPrefixCI, if_neg hb] at h
        cases h

theorem stripPrefixCI_append (w w' s : Str) (r : Str)
    (h : stripPrefixCI (w ++ w') s = some r) :
    ∃ mid, stripPrefixCI w s = some mid ∧ stripPrefixCI w' mid = some r := by
  induction w generalizing s with
  | nil => exact ⟨s, rfl, by simpa using h⟩
  | cons a as ih =>
    cases s with
    | nil => simp [stripPrefixCI] at h
    | cons b bs =>
      by_cases hb : b.toLower = a
      · rw [List.cons_append, stripPrefixCI, if_pos hb] at h
        obtain ⟨mid, h1, h2⟩ := ih bs h
        exact ⟨mid, by rw [stripPrefixCI, if_pos hb]; exact h1, h2⟩
      · rw [List.cons_append, stripPrefixCI, if_neg hb] at h
        cases h

theorem existsSuffix_iff (p : Str → Bool) (s : Str) :
    existsSuffix p s = true ↔ ∃ a b, s = a ++ b ∧ p b = true := by
  constructor
  · intro h
    induction s with
    | nil => exact ⟨[], [], rfl, by simpa [existsSuffix] using h⟩
    | cons c rest ih =>
      rw [existsSuffix, Bool.or_eq_true] at h
      rcases h with h | h
      · exact ⟨[], c :: rest, rfl, h⟩
      · obtain ⟨a, b, hab, hp⟩ := ih h
        exact ⟨c :: a, b, by simp [hab], hp⟩
  · rintro ⟨a, b, rfl, hp⟩
    induction a with
    | nil =>
      cases b with
      | nil => simpa [existsSuffix] using hp
      | cons c rest => simp [existsSuffix, hp]
    | cons c a ih =>
      rw [List.cons_append, existsSuffix, Bool.or_eq_true]
      exact Or.inr ih

theorem existsSuffix_false_iff (p : Str → Bool) (s : Str) :
    existsSuffix p s = false ↔ ∀ a b, s = a ++ b → p b = false := by
  constructor
  · intro h a b hab
    by_contra hb
    have ht : existsSuffix p s = true :=
      (existsSuffix_iff p s).mpr ⟨a, b, hab, by simpa using hb⟩
    rw [h] at ht
    cases ht
  · intro h
    by_contra hs
    have ht : existsSuffix p s = true := by simpa using hs
    obtain ⟨a, b, hab, hp⟩ := (existsSuffix_iff p s).mp ht
    rw [h a b hab] at hp
    cases hp

theorem takeWhile_append_all {p : Char → Bool} (l m : Str) (h : ∀ x ∈ l, p x = true) :
    (l ++ m).takeWhile p = l ++ m.takeWhile p := by
  induction l with
  | nil => simp
  | cons c t ih =>
    rw [List.cons_append, List.takeWhile_cons_of_pos (h c (by simp)), ih fun x hx => h x (by simp [hx])]
    rfl

theorem dropWhile_append_all {p : Char → Bool} (l m : Str) (h : ∀ x ∈ l, p x = true) :
    (l ++ m).dropWhile p = m.dropWhile p := by
  induction l with
  | nil => simp
  | cons c t ih =>
    rw [List.cons_append, List.dropWhile_cons_of_pos (h c (by simp))]
    exact ih fun x hx => h x (by simp [hx])

theorem splitOn_no_sep (sep : Char) (d : Str) (h : sep ∉ d) : splitOn sep d = [d] := by
  have := splitOn_append sep d [] h [] [] (by simp [splitOn])
  simpa using this

theorem map_trim_splitOn_ws (sep : Char) (c : Char) (w : Str) (hws : isWsJs c = true)
    (hc : c ≠ sep) :
    (splitOn sep (c :: w)).map trimChars = (splitOn sep w).map trimChars := by
  cases hs : splitOn sep w with
  | nil => exact absurd hs (splitOn_ne_nil sep w)
  | cons a t =>
    rw [splitOn_cons_ne sep c w hc a t hs]
    simp only [List.map_cons]
    rw [trimChars_cons_ws c a hws]

/-! ## Structure of `sanitizeStyle` output -/

theorem allowProps_facts :
    ∀ p ∈ allowProps, p ≠ [] ∧ ';' ∉ p ∧ ':' ∉ p ∧ '"' ∉ p ∧
      (∀ x ∈ p, isWsJs x = false) ∧ toLowerStr p = p := by
  decide

theorem sanitizeRule_shape (rule : Str) (hrule : ';' ∉ rule) :
    sanitizeRule rule = [] ∨
      ∃ p v, p ∈ allowProps ∧ trimChars v = v ∧ ':' ∉ v ∧ ';' ∉ v ∧
        denyVal v = false ∧ (∀ x ∈ v, x ∈ rule) ∧
        sanitizeRule rule = p ++ ':' :: ' ' :: v := by
  unfold sanitizeRule
  cases hs : splitOn ':' rule with
  | nil => exact Or.inl rfl
  | cons prop rest =>
    cases rest with
    | nil => exact Or.inl rfl
    | cons rawVal t =>
      by_cases h1 : prop = []
      · simp [h1]
      by_cases h2 : rawVal = []
      · simp [h1, h2]
      by_cases h3 : toLowerStr (trimChars prop) ∈ allowProps
      · by_cases h4 : denyVal (trimChars rawVal)
        · simp [h1, h2, h3, h4]
        · refine Or.inr ⟨toLowerStr (trimChars prop), trimChars rawVal, h3,
            trimChars_idem rawVal, ?_, ?_, by simpa using h4, ?_, by simp [h1, h2, h3, h4]⟩
          · intro hmem
            exact not_mem_of_mem_splitOn ':' rule rawVal
              (hs ▸ List.mem_cons_of_mem prop (List.mem_cons_self rawVal t))
              (mem_trimChars rawVal ':' hmem)
          · intro hmem
            exact hrule (mem_of_mem_splitOn ':' rule rawVal ';'
              (hs ▸ List.mem_cons_of_mem prop (List.mem_cons_self rawVal t))
              (mem_trimChars rawVal ';' hmem))
          · intro x hx
            exact mem_of_mem_splitOn ':' rule rawVal x
              (hs ▸ List.mem_cons_of_mem prop (List.mem_cons_self rawVal t))
              (mem_trimChars rawVal x hx)
      · simp [h1, h2, h3]

/-- The output of `sanitizeStyle` is the `"; "`-join of a list of good
declarations whose value characters all come from the input. -/
theorem sanitizeStyle_eq_join (style : Str) :
    ∃ L, sanitizeStyle style = joinSep sepSemiSp L ∧
      ∀ d ∈ L, GoodDecl d ∧
        ∀ x ∈ d, x ∈ style ∨ (∃ p ∈ allowProps, x ∈ p) ∨ x = ':' ∨ x = ' ' := by
  refine ⟨_, rfl, ?_⟩
  intro d hd
  rw [List.mem_filter] at hd
  obtain ⟨hd1, hd2⟩ := hd
  rw [List.mem_map] at hd1
  obtain ⟨rule, hrule, hdr⟩ := hd1
  rw [List.mem_filter] at hrule
  obtain ⟨hrule1, _⟩ := hrule
  rw [List.mem_map] at hrule1
  obtain ⟨seg, hseg, hrs⟩ := hrule1
  have hsemi : ';' ∉ rule := by
    intro hmem
    exact not_mem_of_mem_splitOn ';' style seg hseg (mem_trimChars seg ';' (hrs ▸ hmem))
  rcases sanitizeRule_shape rule hsemi with h | ⟨p, v, hp, hv, hcolon, hsemiv, hdeny, hchars, heq⟩
  · rw [← hdr, h] at hd2
    simp at hd2
  · have hd' : d = p ++ ':' :: ' ' :: v := by rw [← hdr, heq]
    refine ⟨⟨p, v, hp, hv, hcolon, hsemiv, hdeny, hd'⟩, ?_⟩
    intro x hx
    rw [hd'] at hx
    rcases List.mem_append.mp hx with hx | hx
    · exact Or.inr (Or.inl ⟨p, hp, hx⟩)
    · rcases List.mem_cons.mp hx with hx | hx
      · exact Or.inr (Or.inr (Or.inl hx))
      · rcases List.mem_cons.mp hx with hx | hx
        · exact Or.inr (Or.inr (Or.inr hx))
        · exact Or.inl (mem_of_mem_splitOn ';' style seg x hseg
            (mem_trimChars seg x (hrs ▸ hchars x hx)))

theorem goodDecl_no_semi (d : Str) (hd : GoodDecl d) : ';' ∉ d := by
  obtain ⟨p, v, hp, _, _, hsemiv, _, rfl⟩ := hd
  intro hmem
  rcases List.mem_append.mp hmem with h | h
  · exact (allowProps_facts p hp).2.1 h
  · rcases List.mem_cons.mp h with h | h
    · cases h
    · rcases List.mem_cons.mp h with h | h
      · cases h
      · exact hsemiv h

theorem goodDecl_trim (d : Str) (hd : GoodDecl d) :
    ∃ p v, p ∈ allowProps ∧ trimChars v = v ∧ ':' ∉ v ∧ denyVal v = false ∧
      d = p ++ ':' :: ' ' :: v ∧
      ((trimChars d = p ++ [':'] ∧ v = []) ∨
        (trimChars d = p ++ ':' :: ' ' :: v ∧ v ≠ [])) := by
  obtain ⟨p, v, hp, hv, hcolon, _, hdeny, rfl⟩ := hd
  obtain ⟨hne, _, _, _, hws, _⟩ := allowProps_facts p hp
  cases p with
  | nil => exact absurd rfl hne
  | cons c p' =>
    have hc : isWsJs c = false := hws c (by simp)
    have htr := trimChars_decl c p' v hc hv
    refine ⟨c :: p', v, hp, hv, hcolon, hdeny, rfl, ?_⟩
    by_cases hv0 : v = []
    · subst hv0
      rw [if_pos rfl] at htr
      exact Or.inl ⟨by rw [List.cons_append] at htr ⊢; exact htr, rfl⟩
    · rw [if_neg hv0] at htr
      exact Or.inr ⟨by rw [List.cons_append] at htr ⊢; exact htr, hv0⟩

theorem goodDecl_trim_ne_nil (d : Str) (hd : GoodDecl d) : trimChars d ≠ [] := by
  obtain ⟨p, v, hp, _, _, _, _, h⟩ := goodDecl_trim d hd
  rcases h with ⟨heq, _⟩ | ⟨heq, _⟩ <;> rw [heq] <;>
    exact fun hc => (allowProps_facts p hp).1 (by simpa using congrArg List.length hc)

/-- Splitting the `"; "`-join of semicolon-free pieces recovers the
trimmed pieces. -/
theorem declsOf_join_map (l : List Str) (hsemi : ∀ d ∈ l, ';' ∉ d)
    (hne : ∀ d ∈ l, trimChars d ≠ []) :
    declsOf (joinSep sepSemiSp l) = l.map trimChars := by
  induction l with
  | nil => simp [declsOf, joinSep, splitOn, trimChars_nil]
  | cons d l' ih =>
    cases l' with
    | nil =>
      unfold declsOf
      rw [joinSep, splitOn_no_sep ';' d (hsemi d (by simp))]
      simp [hne d (by simp)]
    | cons e l'' =>
      have hjoin : joinSep sepSemiSp (d :: e :: l'') =
          d ++ ';' :: ' ' :: joinSep sepSemiSp (e :: l'') := by
        rw [joinSep_cons sepSemiSp d (e :: l'') (by simp)]
        simp [sepSemiSp]
      unfold declsOf
      rw [hjoin, splitOn_append ';' d (';' :: ' ' :: joinSep sepSemiSp (e :: l''))
        (hsemi d (by simp)) [] (splitOn ';' (' ' :: joinSep sepSemiSp (e :: l'')))
        (splitOn_cons_sep ';' _)]
      rw [List.map_cons, List.append_nil]
      rw [map_trim_splitOn_ws ';' ' ' (joinSep sepSemiSp (e :: l'')) (by decide) (by decide)]
      rw [List.filter_cons_of_pos (by simpa using hne d (by simp))]
      have := ih (fun x hx => hsemi x (by simp [hx])) (fun x hx => hne x (by simp [hx]))
      unfold declsOf at this
      rw [this]
      simp

theorem propNameOf_decl (p z : Str) (hp : ':' ∉ p) : propNameOf (p ++ ':' :: z) = p := by
  unfold propNameOf
  rw [takeWhile_append_all p (':' :: z) (fun x hx => by
    simp only [decide_eq_true_eq]
    exact fun h => hp (h ▸ hx))]
  simp

theorem valueTextOf_decl (p z : Str) (hp : ':' ∉ p) :
    valueTextOf (p ++ ':' :: z) = trimChars z := by
  unfold valueTextOf
  rw [dropWhile_append_all p (':' :: z) (fun x hx => by
    simp only [decide_eq_true_eq]
    exact fun h => hp (h ▸ hx))]
  simp

/-- Descriptions of the declarations of a sanitized style string: the
property name is an allow-list member and the value is either empty or the
value of a good declaration. -/
theorem declsOf_sanitizeStyle (style : Str) (d : Str)
    (hd : d ∈ declsOf (sanitizeStyle style)) :
    ∃ p, p ∈ allowProps ∧ propNameOf d = p ∧
      (valueTextOf d = [] ∨
        (∃ v, valueTextOf d = v ∧ trimChars v = v ∧ ':' ∉ v ∧ denyVal v = false)) := by
  obtain ⟨L, hL, hgood⟩ := sanitizeStyle_eq_join style
  rw [hL, declsOf_join_map L (fun x hx => goodDecl_no_semi x (hgood x hx).1)
    (fun x hx => goodDecl_trim_ne_nil x (hgood x hx).1)] at hd
  rw [List.mem_map] at hd
  obtain ⟨d0, hd0, hdt⟩ := hd
  obtain ⟨p, v, hp, hv, hcolon, hdeny, _, hcase⟩ := goodDecl_trim d0 (hgood d0 hd0).1
  have hpc : ':' ∉ p := (allowProps_facts p hp).2.2.1
  rcases hcase with ⟨heq, hv0⟩ | ⟨heq, hv0⟩
  · subst hdt
    rw [heq]
    refine ⟨p, hp, ?_, Or.inl ?_⟩
    · have := propNameOf_decl p [] hpc
      simpa using this
    · have := valueTextOf_decl p [] hpc
      simpa [trimChars_nil] using this
  · subst hdt
    rw [heq]
    refine ⟨p, hp, propNameOf_decl p (' ' :: v) hpc, Or.inr ⟨v, ?_, hv, hcolon, hdeny⟩⟩
    rw [valueTextOf_decl p (' ' :: v) hpc, trimChars_cons_ws ' ' v (by decide), hv]

theorem tokParen_of_containsCI (w v : Str) (h : containsCI (w ++ ['(']) v = true) :
    hasTokParen w v = true := by
  obtain ⟨a, b, hab, hp⟩ := (existsSuffix_iff _ v).mp h
  simp only [Option.isSome_iff_exists] at hp
  obtain ⟨r, hr⟩ := hp
  obtain ⟨mid, h1, h2⟩ := stripPrefixCI_append w ['('] b r hr
  obtain ⟨m, hm1, hm2⟩ := stripPrefixCI_some ['('] mid r h2
  cases m with
  | nil => simp at hm2
  | cons m0 mt =>
    cases mt with
    | nil =>
      have hm0 : m0.toLower = '(' := by simpa using hm2
      have hm0' : m0 = '(' := toLower_eq_of_target m0 '(' (by decide) hm0
      subst hm0'
      apply (existsSuffix_iff _ v).mpr
      refine ⟨a, b, hab, ?_⟩
      unfold tokParenAt
      simp only [List.singleton_append] at hm1
      have hdw : List.dropWhile isWsJs ('(' :: r) = '(' :: r :=
        List.dropWhile_cons_of_neg (by decide)
      rw [h1, hm1]
      simp [hdw, headIsChar]
    | cons _ _ => simp at hm2

/-- C1: for every raw style attribute string, every declaration in the
sanitizer's output style string has a (lower-cased) property name in the
fixed fourteen-element allow-list, and no declaration value in the output
contains `url(`, `!important`, `expression(`, or `javascript:`
case-insensitively. -/
theorem C1_style_allowlist_and_deny (style : Str) (d : Str)
    (hd : d ∈ declsOf (sanitizeStyle style)) :
    toLowerStr (propNameOf d) ∈ allowProps ∧
      containsCI urlParenW (valueTextOf d) = false ∧
      containsCI importantW (valueTextOf d) = false ∧
      containsCI expressionParenW (valueTextOf d) = false ∧
      containsCI javascriptW (valueTextOf d) = false := by
  obtain ⟨p, hp, hprop, hval⟩ := declsOf_sanitizeStyle style d hd
  have hlow : toLowerStr p = p := (allowProps_facts p hp).2.2.2.2.2
  refine ⟨by rw [hprop, hlow]; exact hp, ?_⟩
  rcases hval with hval | ⟨v, hval, _, _, hdeny⟩
  · rw [hval]
    refine ⟨by decide, by decide, by decide, by decide⟩
  · rw [hval]
    unfold denyVal at hdeny
    simp only [Bool.or_eq_false_iff] at hdeny
    obtain ⟨⟨⟨h1, h2⟩, h3⟩, h4⟩ := hdeny
    refine ⟨?_, h2, ?_, h4⟩
    · by_contra hc
      have : containsCI urlParenW v = true := by simpa using hc
      rw [show urlParenW = urlW ++ ['('] from by decide] at this
      rw [tokParen_of_containsCI urlW v this] at h1
      cases h1
    · by_contra hc
      have : containsCI expressionParenW v = true := by simpa using hc
      rw [show expressionParenW = expressionW ++ ['('] from by decide] at this
      rw [tokParen_of_containsCI expressionW v this] at h3
      cases h3

theorem C1_witness :
    wit1Decl ∈ declsOf (sanitizeStyle wit1Style) ∧
      (toLowerStr (propNameOf wit1Decl) ∈ allowProps ∧
        containsCI urlParenW (valueTextOf wit1Decl) = false ∧
        containsCI importantW (valueTextOf wit1Decl) = false ∧
        containsCI expressionParenW (valueTextOf wit1Decl) = false ∧
        containsCI javascriptW (valueTextOf wit1Decl) = false) :=
  ⟨by decide, C1_style_allowlist_and_deny wit1Style wit1Decl (by decide)⟩

/-- C10: the sanitizer destructures `rule.split(':')` into its first two
segments only, so a surviving declaration's emitted value is the trimmed
first segment of the value text, truncated at the value's first colon; and
consequently no declaration value in the sanitizer's output contains a
colon. -/
theorem C10_value_truncated_at_first_colon :
    (∀ rule p v rest, splitOn ':' rule = p :: v :: rest →
        sanitizeRule rule = [] ∨
          sanitizeRule rule = toLowerStr (trimChars p) ++ ':' :: ' ' :: trimChars v) ∧
      (∀ style d, d ∈ declsOf (sanitizeStyle style) → ':' ∉ valueTextOf d) := by
  constructor
  · intro rule p v rest hsplit
    unfold sanitizeRule
    rw [hsplit]
    by_cases h1 : p = []
    · simp [h1]
    by_cases h2 : v = []
    · simp [h1, h2]
    by_cases h3 : toLowerStr (trimChars p) ∈ allowProps
    · by_cases h4 : denyVal (trimChars v)
      · simp [h1, h2, h3, h4]
      · simp [h1, h2, h3, h4]
    · simp [h1, h2, h3]
  · intro style d hd
    obtain ⟨p, _, _, hval⟩ := declsOf_sanitizeStyle style d hd
    rcases hval with hval | ⟨v, hval, _, hcolon, _⟩
    · rw [hval]; simp
    · rw [hval]; exact hcolon

theorem C10_witness :
    (splitOn ':' ("color:red:blue".data) =
        ("color".data) :: ("red".data) :: [("blue".data)] ∧
      sanitizeRule ("color:red:blue".data) =
        toLowerStr (trimChars ("color".data)) ++ ':' :: ' ' :: trimChars ("red".data)) ∧
      ':' ∉ valueTextOf ("color: red".data) := by
  refine ⟨⟨by decide, ?_⟩, ?_⟩
  · rcases C10_value_truncated_at_first_colon.1 ("color:red:blue".data) ("color".data)
      ("red".data) [("blue".data)] (by decide) with h | h
    · exact absurd h (by decide)
    · exact h
  · exact C10_value_truncated_at_first_colon.2 ("color: red".data) ("color: red".data)
      (by decide)

/-! ## The rate limiter: claims C6 and C7 -/

/-- C6: the bucket invariant `0 ≤ tokens ≤ capacity` — buckets are created
full, the lazy refill clamps at the capacity, and a token is spent only
when at least one is available, so after any invocation on an in-range
bucket (with monotone time and a positive window) the bucket is in range
again, in both the rejected and the admitted case. -/
theorem C6_bucket_invariant (capacity windowMs : ℚ) (b : Bucket) (now : ℚ)
    (hcap : 0 ≤ capacity) (hwin : 0 < windowMs) (hlo : 0 ≤ b.tokens)
    (_hhi : b.tokens ≤ capacity) (htime : b.updatedAt ≤ now) :
    ((newBucket capacity now).tokens = capacity ∧
      0 ≤ (newBucket capacity now).tokens ∧ (newBucket capacity now).tokens ≤ capacity) ∧
      0 ≤ (limiterStep capacity windowMs b now).1.tokens ∧
      (limiterStep capacity windowMs b now).1.tokens ≤ capacity := by
  have hrate : 0 ≤ capacity / windowMs := div_nonneg hcap (le_of_lt hwin)
  have helapsed : 0 ≤ now - b.updatedAt := by linarith
  have ht1lo : 0 ≤ refillTokens capacity windowMs b now := by
    unfold refillTokens
    have : 0 ≤ b.tokens + (now - b.updatedAt) * (capacity / windowMs) := by
      have := mul_nonneg helapsed hrate
      linarith
    exact le_min hcap this
  have ht1hi : refillTokens capacity windowMs b now ≤ capacity := min_le_left _ _
  refine ⟨⟨rfl, by simpa [newBucket] using hcap, by simp [newBucket]⟩, ?_⟩
  unfold limiterStep
  by_cases hre : refillTokens capacity windowMs b now < 1
  · rw [if_pos hre]
    exact ⟨ht1lo, ht1hi⟩
  · rw [if_neg hre]
    push_neg at hre
    constructor
    · simp only
      linarith
    · simp only
      linarith

theorem C6_witness :
    (0:ℚ) ≤ 60 ∧ (0:ℚ) < 60000 ∧ (0:ℚ) ≤ (⟨59, 0⟩ : Bucket).tokens ∧
      (⟨59, 0⟩ : Bucket).tokens ≤ 60 ∧ (⟨59, 0⟩ : Bucket).updatedAt ≤ (1000:ℚ) ∧
      (((newBucket 60 1000).tokens = 60 ∧ 0 ≤ (newBucket 60 1000).tokens ∧
          (newBucket 60 1000).tokens ≤ 60) ∧
        0 ≤ (limiterStep 60 60000 ⟨59, 0⟩ 1000).1.tokens ∧
        (limiterStep 60 60000 ⟨59, 0⟩ 1000).1.tokens ≤ 60) := by
  refine ⟨by norm_num, by norm_num, by norm_num [Bucket.tokens], by norm_num [Bucket.tokens],
    by norm_num [Bucket.updatedAt], ?_⟩
  exact C6_bucket_invariant 60 60000 ⟨59, 0⟩ 1000 (by norm_num) (by norm_num)
    (by norm_num) (by norm_num) (by norm_num)

/-- C7: after the lazy refill, if fewer than one token remains the request
is rejected and the attached Retry-After value is exactly
`⌈(1 - tokens) / refillRatePerMs / 1000⌉` seconds, a positive integer;
otherwise exactly one token is spent and the request is admitted. -/
theorem C7_admission_and_retry (capacity windowMs : ℚ) (b : Bucket) (now : ℚ)
    (hcap : 0 < capacity) (hwin : 0 < windowMs) :
    (refillTokens capacity windowMs b now < 1 →
      limiterStep capacity windowMs b now =
        ({ tokens := refillTokens capacity windowMs b now, updatedAt := now },
          some ⌈(1 - refillTokens capacity windowMs b now) / (capacity / windowMs) / 1000⌉) ∧
      1 ≤ ⌈(1 - refillTokens capacity windowMs b now) / (capacity / windowMs) / 1000⌉) ∧
    (1 ≤ refillTokens capacity windowMs b now →
      limiterStep capacity windowMs b now =
        ({ tokens := refillTokens capacity windowMs b now - 1, updatedAt := now }, none)) := by
  constructor
  · intro hlt
    constructor
    · unfold limiterStep
      rw [if_pos hlt]
    · have hrate : 0 < capacity / windowMs := div_pos hcap hwin
      have hpos : 0 < (1 - refillTokens capacity windowMs b now) / (capacity / windowMs) / 1000 := by
        apply div_pos
        · apply div_pos
          · linarith
          · exact hrate
        · norm_num
      exact Int.ceil_pos.mpr hpos
  · intro hge
    unfold limiterStep
    rw [if_neg (by linarith)]

theorem C7_witness :
    (0:ℚ) < 60 ∧ (0:ℚ) < 60000 ∧
      refillTokens 60 60000 ⟨(1:ℚ)/2, 0⟩ 0 < 1 ∧
      (limiterStep 60 60000 ⟨(1:ℚ)/2, 0⟩ 0 =
          ({ tokens := refillTokens 60 60000 ⟨(1:ℚ)/2, 0⟩ 0, updatedAt := 0 },
            some ⌈(1 - refillTokens 60 60000 ⟨(1:ℚ)/2, 0⟩ 0) / ((60:ℚ) / 60000) / 1000⌉) ∧
        1 ≤ ⌈(1 - refillTokens 60 60000 ⟨(1:ℚ)/2, 0⟩ 0) / ((60:ℚ) / 60000) / 1000⌉) := by
  have hlt : refillTokens 60 60000 ⟨(1:ℚ)/2, 0⟩ 0 < 1 := by
    unfold refillTokens
    norm_num [Bucket.tokens, Bucket.updatedAt]
  exact ⟨by norm_num, by norm_num, hlt,
    (C7_admission_and_retry 60 60000 ⟨(1:ℚ)/2, 0⟩ 0 (by norm_num) (by norm_num)).1 hlt⟩

/-! ## The text normalizer: claim C8 -/

/-- C8 counterexample: the claim says the normalizer equals the pipeline
"replace newline/CR/tab, NFKC, strip controls, trim, truncate to 200", but
the code truncates to 200 *before* normalizing: on 100 spaces followed by
150 letters (NFKC acting as the identity here) the code keeps 100 letters
while the claimed pipeline keeps 150. -/
theorem C8_counterexample :
    textNorm id cex8Input = some (List.replicate 100 'a') ∧
      claimTextPipeline id cex8Input = List.replicate 150 'a' ∧
      (List.replicate 100 'a' : Str) ≠ List.replicate 150 'a' := by
  refine ⟨by decide, by decide, by decide⟩

/-- C8 amended: the normalizer produces, in order: coerce to string,
replace newline/carriage-return/tab by a space, truncate to 200, NFKC,
replace control characters by a space, trim, truncate to 200 again; the
empty string is a valid result (given that NFKC maps empty to empty). -/
theorem C8_amended_pipeline (nfkc : Str → Str) (t : Str) (s : Str)
    (h : textNorm nfkc t = some s) :
    s = (trimChars (replCtl (nfkc ((replNRT t).take 200)))).take 200 ∧
      (nfkc [] = [] → textNorm nfkc [] = some []) := by
  constructor
  · unfold textNorm assertClean at h
    by_cases hdeny : denyTest ((normStr nfkc (clampText t)).take 200)
    · rw [if_pos hdeny] at h
      cases h
    · rw [if_neg hdeny] at h
      have := Option.some_injective _ h.symm
      rw [this]
      rfl
  · intro hempty
    unfold textNorm assertClean normStr clampText
    simp only [replNRT, List.map_nil, List.take_nil, hempty]
    decide

theorem C8_amended_witness :
    textNorm id (List.replicate 3 'a') = some (List.replicate 3 'a') ∧
      ((List.replicate 3 'a' : Str) =
          (trimChars (replCtl (id ((replNRT (List.replicate 3 'a')).take 200)))).take 200 ∧
        (id ([] : Str) = [] → textNorm id [] = some [])) :=
  ⟨by decide, C8_amended_pipeline id (List.replicate 3 'a') (List.replicate 3 'a') (by decide)⟩

/-! ## Coercer failure behaviour: claim C4 -/

/-- C4: the coercer fails with the "model did not return a button" error
exactly when the html contains no match of the non-greedy case-insensitive
button pattern; when there are matches (one or several) it succeeds and
builds its output from the first match only. -/
theorem C4_fail_iff_no_match (html exactText : Str) :
    (coerceSingleButton html exactText = Except.error errNoButton ↔
        buttonMatches html = []) ∧
      (∀ m ms, buttonMatches html = m :: ms →
        coerceSingleButton html exactText = Except.ok (buildButton m exactText)) := by
  constructor
  · unfold coerceSingleButton
    cases h : buttonMatches html with
    | nil => simp
    | cons m ms => simp
  · intro m ms hm
    unfold coerceSingleButton
    rw [hm]

theorem C4_witness :
    (coerceSingleButton wit4Html wit4Text = Except.error errNoButton ↔
        buttonMatches wit4Html = []) ∧
      buttonMatches wit4Html = wit4Frag1 :: [wit4Frag2] ∧
      coerceSingleButton wit4Html wit4Text =
        Except.ok (buildButton wit4Frag1 wit4Text) :=
  ⟨(C4_fail_iff_no_match wit4Html wit4Text).1, by decide,
    (C4_fail_iff_no_match wit4Html wit4Text).2 wit4Frag1 [wit4Frag2] (by decide)⟩

/-! ## The data-attribute harvest: claim C9 -/

theorem startsWithStr_append_self (p b : Str) : startsWithStr p (p ++ b) = true := by
  induction p with
  | nil => rfl
  | cons c t ih => simp [startsWithStr, ih]

theorem containsSub_of_infix (p s : Str) (h : p <:+: s) : containsSub p s = true := by
  obtain ⟨a, b, hab⟩ := h
  apply (existsSuffix_iff _ _).mpr
  exact ⟨a, p ++ b, by rw [← hab, List.append_assoc], startsWithStr_append_self p b⟩

theorem joinSep_infix_of_mem (sep : Str) (l : List Str) (d : Str) (hd : d ∈ l) :
    d <:+: joinSep sep l := by
  induction l with
  | nil => simp at hd
  | cons a t ih =>
    rcases List.mem_cons.mp hd with h | h
    · subst h
      cases t with
      | nil => exact List.infix_refl d
      | cons b u =>
        rw [joinSep_cons sep d (b :: u) (by simp)]
        exact ((List.prefix_append d (sep ++ joinSep sep (b :: u))).trans
          (by rw [List.append_assoc])).isInfix
    · cases t with
      | nil => simp at h
      | cons b u =>
        rw [joinSep_cons sep a (b :: u) (by simp)]
        exact (ih h).trans (List.suffix_append (a ++ sep) (joinSep sep (b :: u))).isInfix

theorem joinSep_ne_nil_of (sep : Str) (l : List Str) (hl : l ≠ [])
    (hne : ∀ d ∈ l, d ≠ []) : joinSep sep l ≠ [] := by
  cases l with
  | nil => exact absurd rfl hl
  | cons a t =>
    cases t with
    | nil => exact hne a (by simp)
    | cons b u =>
      rw [joinSep_cons sep a (b :: u) (by simp)]
      intro hc
      simp only [List.append_eq_nil] at hc
      exact hne a (by simp) hc.1.1

theorem attrText_ne_nil (n v : Str) : attrText n v ≠ [] := by
  unfold attrText
  intro h
  have := congrArg List.length h
  simp at this

/-- C9 counterexample: in `<button a="b data-x=" y"></button>` the pair
`data-x=" y"` appears (whitespace-preceded and well-formed) inside the
fragment, but it overlaps the earlier match ` a="b data-x="`, which the
non-overlapping scan consumes first — so no data attribute at all is
emitted on the output button. -/
theorem C9_counterexample :
    buttonMatches cex9Html = [cex9Html] ∧
      occursDataPair cex9Html = true ∧
      coerceSingleButton cex9Html cex9Text = Except.ok cex9Out ∧
      containsSub dataDashW cex9Out = false :=
  ⟨by decide, by decide, by decide, by decide⟩

/-- C9 amended: the harvest scans the entire matched fragment, inner
content included, with JavaScript's leftmost, non-overlapping `matchAll`
semantics: every `name="value"` pair the scan finds — on the start tag or
on nested elements in the content — whose name lower-cases to start with
`data-` is emitted (attribute-escaped) on the output button.  (Pairs not
preceded by whitespace, or overlapping an earlier match of the scan, are
not found.) -/
theorem C9_amended_scan_harvest (html exactText out m : Str) (ms : List Str)
    (hm : buttonMatches html = m :: ms)
    (hc : coerceSingleButton html exactText = Except.ok out)
    (n v : Str) (hp : (n, v) ∈ collectAttrs m) (hd : startsWithData n = true) :
    containsSub (attrText n v) out = true := by
  have hout : out = buildButton m exactText := by
    unfold coerceSingleButton at hc
    rw [hm] at hc
    exact (Except.ok.inj hc).symm
  subst hout
  apply containsSub_of_infix
  have hpair : (n, v) ∈ dataPairsOf m := by
    unfold dataPairsOf
    rw [List.mem_filter]
    exact ⟨hp, hd⟩
  have h1 : attrText n v <:+: dataAttrsStr m := by
    unfold dataAttrsStr
    exact joinSep_infix_of_mem [' '] _ (attrText n v)
      (List.mem_map.mpr ⟨(n, v), hpair, rfl⟩)
  have hne : dataAttrsStr m ≠ [] := by
    unfold dataAttrsStr
    apply joinSep_ne_nil_of
    · simp only [ne_eq, List.map_eq_nil_iff]
      intro hcon
      rw [hcon] at hpair
      simp at hpair
    · intro d hdm
      obtain ⟨q, _, hq⟩ := List.mem_map.mp hdm
      rw [← hq]
      exact attrText_ne_nil q.1 q.2
  have hparts : buildButton m exactText =
      openSpW ++ (joinSep [' ']
        (([if styleValueOf m exactText = [] then []
            else stylePieceOf (styleValueOf m exactText),
            dataAttrsStr m, typeW]).filter (fun d => d ≠ []))
        ++ ('>' :: (escapeHtml exactText ++ closeW))) := rfl
  have h2 : dataAttrsStr m <:+: buildButton m exactText := by
    rw [hparts]
    have hmem : dataAttrsStr m ∈
        ([if styleValueOf m exactText = [] then []
          else stylePieceOf (styleValueOf m exactText),
          dataAttrsStr m, typeW]).filter (fun d => d ≠ []) := by
      rw [List.mem_filter]
      exact ⟨List.mem_cons_of_mem _ (List.mem_cons_self _ _), by
        simp only [ne_eq, decide_not]
        simpa using hne⟩
    refine (joinSep_infix_of_mem [' '] _ (dataAttrsStr m) hmem).trans ?_
    exact ⟨openSpW, '>' :: (escapeHtml exactText ++ closeW), by simp⟩
  exact h1.trans h2

theorem C9_amended_witness :
    buttonMatches wit9Html = [wit9Html] ∧
      coerceSingleButton wit9Html wit9Text =
        Except.ok (buildButton wit9Html wit9Text) ∧
      (wit9NameB, wit9ValB) ∈ collectAttrs wit9Html ∧
      containsSub (attrText wit9NameB wit9ValB) (buildButton wit9Html wit9Text) = true :=
  ⟨by decide, by decide, by decide,
    C9_amended_scan_harvest wit9Html wit9Text (buildButton wit9Html wit9Text) wit9Html []
      (by decide) (by decide) wit9NameB wit9ValB (by decide) (by decide)⟩

/-! ## The exact label: claim C2 -/

theorem mem_replaceAllChar (c : Char) (r : Str) (s : Str) (x : Char)
    (h : x ∈ replaceAllChar c r s) : x ∈ r ∨ (x ∈ s ∧ x ≠ c) := by
  induction s with
  | nil => simp [replaceAllChar] at h
  | cons a t ih =>
    unfold replaceAllChar at h
    rcases List.mem_append.mp h with h1 | h1
    · by_cases hac : a = c
      · rw [if_pos hac] at h1
        exact Or.inl h1
      · rw [if_neg hac] at h1
        rcases List.mem_singleton.mp h1 with rfl
        exact Or.inr ⟨by simp, hac⟩
    · rcases ih h1 with h2 | ⟨h2, h3⟩
      · exact Or.inl h2
      · exact Or.inr ⟨by simp [h2], h3⟩

theorem quot_not_mem_escapeAttr (v : Str) : '"' ∉ escapeAttr v := by
  intro h
  unfold escapeAttr at h
  rcases mem_replaceAllChar '<' ltW _ '"' h with h1 | ⟨h1, _⟩
  · exact absurd h1 (by decide)
  · rcases mem_replaceAllChar '"' quotW _ '"' h1 with h2 | ⟨_, h3⟩
    · exact absurd h2 (by decide)
    · exact h3 rfl

theorem lt_not_mem_escapeAttr (v : Str) : '<' ∉ escapeAttr v := by
  intro h
  unfold escapeAttr at h
  rcases mem_replaceAllChar '<' ltW _ '<' h with h1 | ⟨_, h3⟩
  · exact absurd h1 (by decide)
  · exact h3 rfl

theorem lt_not_mem_escapeHtml (t : Str) : '<' ∉ escapeHtml t := by
  intro h
  unfold escapeHtml at h
  rcases mem_replaceAllChar '\'' aposW _ '<' h with h1 | ⟨h1, _⟩
  · exact absurd h1 (by decide)
  · rcases mem_replaceAllChar '"' quotW _ '<' h1 with h2 | ⟨h2, _⟩
    · exact absurd h2 (by decide)
    · rcases mem_replaceAllChar '>' gtW _ '<' h2 with h3 | ⟨h3, _⟩
      · exact absurd h3 (by decide)
      · rcases mem_replaceAllChar '<' ltW _ '<' h3 with h4 | ⟨_, h5⟩
        · exact absurd h4 (by decide)
        · exact h5 rfl

theorem quot_not_mem_escapeHtml (t : Str) : '"' ∉ escapeHtml t := by
  intro h
  unfold escapeHtml at h
  rcases mem_replaceAllChar '\'' aposW _ '"' h with h1 | ⟨h1, _⟩
  · exact absurd h1 (by decide)
  · rcases mem_replaceAllChar '"' quotW _ '"' h1 with h2 | ⟨_, h3⟩
    · exact absurd h2 (by decide)
    · exact h3 rfl

theorem mem_joinSep (sep : Str) (l : List Str) (x : Char) (h : x ∈ joinSep sep l) :
    x ∈ sep ∨ ∃ d ∈ l, x ∈ d := by
  induction l with
  | nil => simp [joinSep] at h
  | cons a t ih =>
    cases t with
    | nil => exact Or.inr ⟨a, by simp, h⟩
    | cons b u =>
      rw [joinSep_cons sep a (b :: u) (by simp)] at h
      rcases List.mem_append.mp h with h1 | h1
      · rcases List.mem_append.mp h1 with h2 | h2
        · exact Or.inr ⟨a, by simp, h2⟩
        · exact Or.inl h2
      · rcases ih h1 with h2 | ⟨d, hd, hx⟩
        · exact Or.inl h2
        · exact Or.inr ⟨d, by simp [hd], hx⟩

theorem styleCapAt_some (s v : Str) (h : styleCapAt s = some v) :
    ∃ r, stripPrefixCI styleEqW s = some r ∧ v = r.takeWhile (fun d => d ≠ '"') := by
  unfold styleCapAt at h
  cases hstrip : stripPrefixCI styleEqW s with
  | none => rw [hstrip] at h; cases h
  | some r =>
    rw [hstrip] at h
    have h' : (if r.dropWhile (fun d => d ≠ '"') = [] then none
        else some (r.takeWhile (fun d => d ≠ '"'))) = some v := h
    by_cases hdw : r.dropWhile (fun d => d ≠ '"') = []
    · rw [if_pos hdw] at h'
      cases h'
    · rw [if_neg hdw] at h'
      exact ⟨r, rfl, (Option.some.inj h').symm⟩

theorem mem_styleAttrOf (s : Str) (x : Char) (h : x ∈ styleAttrOf s) : x ≠ '"' := by
  induction s with
  | nil => simp [styleAttrOf] at h
  | cons c rest ih =>
    unfold styleAttrOf at h
    cases hcap : styleCapAt (c :: rest) with
    | none =>
      rw [hcap] at h
      exact ih h
    | some v =>
      rw [hcap] at h
      obtain ⟨r, _, hv⟩ := styleCapAt_some (c :: rest) v hcap
      rw [hv] at h
      have := List.mem_takeWhile_imp h
      simpa using this

theorem quot_not_mem_sanitizeStyle (style : Str) (hq : '"' ∉ style) :
    '"' ∉ sanitizeStyle style := by
  intro h
  obtain ⟨L, hL, hgood⟩ := sanitizeStyle_eq_join style
  rw [hL] at h
  rcases mem_joinSep sepSemiSp L '"' h with h1 | ⟨d, hd, hx⟩
  · exact absurd h1 (by decide)
  · rcases (hgood d hd).2 '"' hx with h2 | ⟨p, hp, h2⟩ | h2 | h2
    · exact hq h2
    · exact (allowProps_facts p hp).2.2.2.1 h2
    · cases h2
    · cases h2

theorem mem_additionsOf (s : Str) (e : Str) (he : e ∈ additionsOf s) :
    e = padDecl ∨ e = borderDecl ∨ e = bgDecl := by
  unfold additionsOf at he
  rcases List.mem_append.mp he with h5 | h5
  · rcases List.mem_append.mp h5 with h6 | h6
    · split at h6
      · simp at h6
      · exact Or.inl (List.mem_singleton.mp h6)
    · split at h6
      · simp at h6
      · exact Or.inr (Or.inl (List.mem_singleton.mp h6))
  · split at h5
    · exact Or.inr (Or.inr (List.mem_singleton.mp h5))
    · simp at h5

theorem mem_addDefaults (s : Str) (x : Char) (h : x ∈ addDefaults s) :
    x ∈ s ∨ x ∈ padDecl ∨ x ∈ borderDecl ∨ x ∈ bgDecl ∨ x ∈ sepSemiSp := by
  unfold addDefaults at h
  split at h
  · exact Or.inl h
  · rcases mem_joinSep sepSemiSp _ x h with h1 | ⟨d, hd, hx⟩
    · exact Or.inr (Or.inr (Or.inr (Or.inr h1)))
    · rw [List.mem_filter] at hd
      rcases List.mem_cons.mp hd.1 with h2 | h2
      · subst h2
        exact Or.inl hx
      · rcases List.mem_cons.mp h2 with h3 | h3
        · subst h3
          rcases mem_joinSep sepSemiSp _ x hx with h4 | ⟨e, he, hxe⟩
          · exact Or.inr (Or.inr (Or.inr (Or.inr h4)))
          · rcases mem_additionsOf s e he with rfl | rfl | rfl
            · exact Or.inr (Or.inl hxe)
            · exact Or.inr (Or.inr (Or.inl hxe))
            · exact Or.inr (Or.inr (Or.inr (Or.inl hxe)))
        · simp at h3

theorem quot_not_mem_styleValueOf (btnTag exactText : Str) :
    '"' ∉ styleValueOf btnTag exactText := by
  intro h
  have hq : '"' ∉ sanitizeStyle (styleAttrOf btnTag) :=
    quot_not_mem_sanitizeStyle _ (fun hmem => mem_styleAttrOf btnTag '"' hmem rfl)
  unfold styleValueOf at h
  split at h
  · rcases mem_addDefaults _ '"' h with h1 | h1 | h1 | h1 | h1
    · exact hq h1
    · exact absurd h1 (by decide)
    · exact absurd h1 (by decide)
    · exact absurd h1 (by decide)
    · exact absurd h1 (by decide)
  · exact hq h

theorem scanQuote_append (a b : Str) (q q' q'' : Bool)
    (ha : scanQuote a q = some q') (hb : scanQuote b q' = some q'') :
    scanQuote (a ++ b) q = some q'' := by
  induction a generalizing q with
  | nil =>
    have : q = q' := Option.some.inj (by simpa [scanQuote] using ha)
    subst this
    simpa using hb
  | cons c t ih =>
    rw [List.cons_append]
    unfold scanQuote at ha ⊢
    by_cases hc : c = '"'
    · rw [if_pos hc] at ha ⊢
      exact ih _ ha
    · rw [if_neg hc] at ha ⊢
      by_cases hgt : (c = '>' && !q) = true
      · rw [if_pos hgt] at ha
        cases ha
      · rw [if_neg hgt] at ha ⊢
        exact ih _ ha

theorem afterTagEnd_cons (c : Char) (rest : Str) (q : Bool) :
    afterTagEnd (c :: rest) q =
      if c = '"' then afterTagEnd rest (!q)
      else if c = '>' && !q then rest
      else afterTagEnd rest q := rfl

theorem afterTagEnd_of_scanQuote (a t : Str) (q q' : Bool)
    (ha : scanQuote a q = some q') :
    afterTagEnd (a ++ t) q = afterTagEnd t q' := by
  induction a generalizing q with
  | nil =>
    have : q = q' := Option.some.inj (by simpa [scanQuote] using ha)
    subst this
    simp
  | cons c u ih =>
    rw [List.cons_append]
    unfold scanQuote at ha
    rw [afterTagEnd_cons]
    by_cases hc : c = '"'
    · rw [if_pos hc] at ha ⊢
      exact ih _ ha
    · rw [if_neg hc] at ha ⊢
      by_cases hgt : (c = '>' && !q) = true
      · rw [if_pos hgt] at ha
        cases ha
      · rw [if_neg hgt] at ha ⊢
        exact ih _ ha

theorem scanQuote_true_of_no_quot (s : Str) (h : '"' ∉ s) :
    scanQuote s true = some true := by
  induction s with
  | nil => rfl
  | cons c t ih =>
    unfold scanQuote
    rw [if_neg (fun hc => h (by simp [hc]))]
    simp only [Bool.not_true, Bool.and_false]
    rw [if_neg (by simp)]
    exact ih (fun hc => h (by simp [hc]))

theorem scanQuote_false_of_clean (s : Str) (hq : '"' ∉ s) (hgt : '>' ∉ s) :
    scanQuote s false = some false := by
  induction s with
  | nil => rfl
  | cons c t ih =>
    unfold scanQuote
    rw [if_neg (fun hc => hq (by simp [hc]))]
    rw [if_neg (by
      simp only [Bool.not_false, Bool.and_true, decide_eq_true_eq]
      exact fun hc => hgt (by simp [hc]))]
    exact ih (fun hc => hq (by simp [hc])) (fun hc => hgt (by simp [hc]))

/-- Scanning one `name="value"` attribute piece leaves the scanner outside
quotes without hitting an unquoted `>`. -/
theorem scanQuote_attrPiece (n val : Str) (hn1 : '"' ∉ n) (hn2 : '>' ∉ n)
    (hv : '"' ∉ val) :
    scanQuote (n ++ '=' :: '"' :: (val ++ ['"'])) false = some false := by
  apply scanQuote_append n _ false false false (scanQuote_false_of_clean n hn1 hn2)
  show scanQuote ('=' :: '"' :: (val ++ ['"'])) false = some false
  unfold scanQuote
  rw [if_neg (by decide), if_neg (by decide)]
  unfold scanQuote
  rw [if_pos rfl]
  simp only [Bool.not_false]
  exact scanQuote_append val ['"'] true true false (scanQuote_true_of_no_quot val hv)
    (by decide)

theorem scanQuote_join_pieces (l : List Str)
    (h : ∀ p ∈ l, scanQuote p false = some false) :
    scanQuote (joinSep [' '] l) false = some false := by
  induction l with
  | nil => rfl
  | cons a t ih =>
    cases t with
    | nil => exact h a (by simp)
    | cons b u =>
      rw [joinSep_cons [' '] a (b :: u) (by simp), List.append_assoc]
      apply scanQuote_append a _ false false false (h a (by simp))
      apply scanQuote_append [' '] _ false false false (by decide)
      exact ih (fun p hp => h p (by simp [hp]))

/-- Characterization of a successful anchored attribute match. -/
theorem matchAttrHead_some (s : Str) (p : (Str × Str) × Str)
    (h : matchAttrHead s = some p) :
    ∃ c rest r3, s = c :: rest ∧ isWsJs c = true ∧
      p.1.1 = rest.takeWhile attrNameChar ∧ p.1.1 ≠ [] ∧
      rest.dropWhile attrNameChar = '=' :: '"' :: r3 ∧
      p.1.2 = r3.takeWhile (fun d => d ≠ '"') ∧
      p.2 = (r3.dropWhile (fun d => d ≠ '"')).drop 1 ∧
      r3.dropWhile (fun d => d ≠ '"') ≠ [] := by
  cases s with
  | nil => cases h
  | cons c rest =>
    have hcons : matchAttrHead (c :: rest) =
        (if isWsJs c then
          if rest.takeWhile attrNameChar = [] then none
          else
            match rest.dropWhile attrNameChar with
            | e :: q :: r3 =>
              if e = '=' ∧ q = '"' then
                if r3.dropWhile (fun d => d ≠ '"') = [] then none
                else some ((rest.takeWhile attrNameChar, r3.takeWhile (fun d => d ≠ '"')),
                  (r3.dropWhile (fun d => d ≠ '"')).drop 1)
              else none
            | _ => none
        else none) := rfl
    rw [hcons] at h
    by_cases hws : isWsJs c
    · rw [if_pos hws] at h
      by_cases hname : rest.takeWhile attrNameChar = []
      · rw [if_pos hname] at h
        cases h
      · rw [if_neg hname] at h
        cases hdw : rest.dropWhile attrNameChar with
        | nil =>
          rw [hdw] at h
          have h0 : (none : Option ((Str × Str) × Str)) = some p := h
          cases h0
        | cons e rest2 =>
          cases rest2 with
          | nil =>
            rw [hdw] at h
            have h0 : (none : Option ((Str × Str) × Str)) = some p := h
            cases h0
          | cons q r3 =>
            rw [hdw] at h
            have h' : (if e = '=' ∧ q = '"' then
                if r3.dropWhile (fun d => d ≠ '"') = [] then none
                else some ((rest.takeWhile attrNameChar, r3.takeWhile (fun d => d ≠ '"')),
                  (r3.dropWhile (fun d => d ≠ '"')).drop 1)
              else none) = some p := h
            by_cases heq : e = '=' ∧ q = '"'
            · rw [if_pos heq] at h'
              by_cases hdq : r3.dropWhile (fun d => d ≠ '"') = []
              · rw [if_pos hdq] at h'
                cases h'
              · rw [if_neg hdq] at h'
                have hp := (Option.some.inj h').symm
                refine ⟨c, rest, r3, rfl, by simpa using hws, ?_, ?_, ?_, ?_, ?_, hdq⟩
                · rw [hp]
                · rw [hp]
                  simpa using hname
                · rw [hdw, heq.1, heq.2]
                · rw [hp]
                · rw [hp]
            · rw [if_neg heq] at h'
              cases h'
    · rw [if_neg hws] at h
      cases h

theorem isWsJs_false_of_printable (x : Char) (h1 : 33 ≤ x.toNat) (h2 : x.toNat ≤ 126) :
    isWsJs x = false := by
  unfold isWsJs
  simp only [Bool.or_eq_false_iff, beq_eq_false_iff_ne, ne_eq, Bool.and_eq_false_iff,
    decide_eq_false_iff_not, not_le]
  omega

theorem attrNameChar_toNat (x : Char) (h : attrNameChar x = true) :
    (97 ≤ x.toNat ∧ x.toNat ≤ 122) ∨ (65 ≤ x.toNat ∧ x.toNat ≤ 90) ∨
      (48 ≤ x.toNat ∧ x.toNat ≤ 57) ∨ x.toNat = 58 ∨ x.toNat = 45 := by
  unfold attrNameChar at h
  simp only [Bool.or_eq_true, Bool.and_eq_true, decide_eq_true_eq, beq_iff_eq] at h
  rcases h with (((⟨h1, h2⟩ | ⟨h1, h2⟩) | ⟨h1, h2⟩) | h) | h
  · exact Or.inl ⟨h1, h2⟩
  · exact Or.inr (Or.inl ⟨h1, h2⟩)
  · exact Or.inr (Or.inr (Or.inl ⟨h1, h2⟩))
  · subst h
    exact Or.inr (Or.inr (Or.inr (Or.inl rfl)))
  · subst h
    exact Or.inr (Or.inr (Or.inr (Or.inr rfl)))

theorem attrNameChar_facts (x : Char) (h : attrNameChar x = true) :
    x ≠ '"' ∧ x ≠ '>' ∧ x ≠ '<' ∧ x ≠ '=' ∧ isWsJs x = false := by
  have hn := attrNameChar_toNat x h
  refine ⟨?_, ?_, ?_, ?_, ?_⟩
  · rintro rfl
    revert hn
    decide
  · rintro rfl
    revert hn
    decide
  · rintro rfl
    revert hn
    decide
  · rintro rfl
    revert hn
    decide
  · apply isWsJs_false_of_printable <;> omega

theorem collectAttrsF_succ (f : Nat) (c : Char) (rest : Str) :
    collectAttrsF (f + 1) (c :: rest) =
      match matchAttrHead (c :: rest) with
      | some (p, r) => p :: collectAttrsF f r
      | none => collectAttrsF f rest := rfl

theorem collectAttrsF_pairs (f : Nat) (s : Str) (n v : Str)
    (h : (n, v) ∈ collectAttrsF f s) :
    (∀ x ∈ n, attrNameChar x = true) ∧ '"' ∉ v := by
  induction f generalizing s with
  | zero =>
    have h0 : collectAttrsF 0 s = [] := rfl
    rw [h0] at h
    simp at h
  | succ f ih =>
    cases s with
    | nil =>
      have h0 : collectAttrsF (f + 1) [] = [] := rfl
      rw [h0] at h
      simp at h
    | cons c rest =>
      rw [collectAttrsF_succ] at h
      cases hm : matchAttrHead (c :: rest) with
      | none =>
        rw [hm] at h
        exact ih rest h
      | some pr =>
        obtain ⟨p1, r1⟩ := pr
        rw [hm] at h
        have h' : (n, v) ∈ p1 :: collectAttrsF f r1 := h
        rcases List.mem_cons.mp h' with h1 | h1
        · obtain ⟨c', rest', r3, -, -, hname, -, -, hval, -, -⟩ :=
            matchAttrHead_some _ (p1, r1) hm
          rw [← h1] at hname hval
          simp only at hname hval
          constructor
          · intro x hx
            rw [hname] at hx
            exact List.mem_takeWhile_imp hx
          · intro hx
            rw [hval] at hx
            have := List.mem_takeWhile_imp hx
            simp at this
        · exact ih _ h1

theorem dataPair_props (btnTag : Str) (n v : Str) (h : (n, v) ∈ dataPairsOf btnTag) :
    (∀ x ∈ n, attrNameChar x = true) ∧ '"' ∉ v := by
  unfold dataPairsOf at h
  exact collectAttrsF_pairs btnTag.length btnTag n v (List.mem_filter.mp h).1

theorem scanQuote_attrText (n v : Str) (hn : ∀ x ∈ n, attrNameChar x = true) :
    scanQuote (attrText n v) false = some false := by
  have hsh : attrText n v = n ++ '=' :: '"' :: (escapeAttr v ++ ['"']) := rfl
  rw [hsh]
  exact scanQuote_attrPiece n (escapeAttr v)
    (fun hq => (attrNameChar_facts '"' (hn _ hq)).1 rfl)
    (fun hq => (attrNameChar_facts '>' (hn _ hq)).2.1 rfl)
    (quot_not_mem_escapeAttr v)

theorem scanQuote_attrsOf (btnTag exactText : Str) :
    scanQuote (attrsOf btnTag exactText) false = some false := by
  unfold attrsOf
  apply scanQuote_join_pieces
  intro p hp
  rw [List.mem_filter] at hp
  rcases List.mem_cons.mp hp.1 with h2 | h2
  · by_cases hS : styleValueOf btnTag exactText = []
    · rw [if_pos hS] at h2
      subst h2
      have := hp.2
      simp at this
    · rw [if_neg hS] at h2
      subst h2
      have hsh : stylePieceOf (styleValueOf btnTag exactText) =
          ("style".data) ++ '=' :: '"' :: (styleValueOf btnTag exactText ++ ['"']) := rfl
      rw [hsh]
      exact scanQuote_attrPiece _ _ (by decide) (by decide)
        (quot_not_mem_styleValueOf btnTag exactText)
  · rcases List.mem_cons.mp h2 with h3 | h3
    · subst h3
      unfold dataAttrsStr
      apply scanQuote_join_pieces
      intro q hq
      obtain ⟨⟨n, v⟩, hnv, hqe⟩ := List.mem_map.mp hq
      rw [← hqe]
      exact scanQuote_attrText n v (dataPair_props btnTag n v hnv).1
    · rcases List.mem_cons.mp h3 with h4 | h4
      · subst h4
        decide
      · simp at h4

/-- C2: whenever the coercer succeeds, the inner text of the emitted
button is exactly the HTML-escaped caller label — whatever inner text the
model's html proposed is discarded. -/
theorem C2_inner_text_is_escaped_label (html exactText out : Str)
    (hc : coerceSingleButton html exactText = Except.ok out) :
    innerTextOf out = escapeHtml exactText := by
  unfold coerceSingleButton at hc
  cases hm : buttonMatches html with
  | nil =>
    rw [hm] at hc
    cases hc
  | cons m ms =>
    rw [hm] at hc
    have hout : out = buildButton m exactText := (Except.ok.inj hc).symm
    subst hout
    unfold buildButton innerTextOf
    rw [← List.append_assoc]
    rw [afterTagEnd_of_scanQuote (openSpW ++ attrsOf m exactText) _ false false
      (scanQuote_append openSpW _ false false false (by decide)
        (scanQuote_attrsOf m exactText))]
    rw [afterTagEnd_cons, if_neg (by decide), if_pos (by decide)]
    rw [takeWhile_append_all (escapeHtml exactText) closeW
      (fun x hx => by
        simp only [decide_eq_true_eq]
        exact fun hlt => lt_not_mem_escapeHtml exactText (hlt ▸ hx))]
    have hcl : closeW.takeWhile (fun c => c ≠ '<') = [] := by decide
    rw [hcl, List.append_nil]

theorem C2_witness :
    coerceSingleButton wit2Html wit2Text = Except.ok wit2Out ∧
      innerTextOf wit2Out = escapeHtml wit2Text :=
  ⟨by decide, C2_inner_text_is_escaped_label wit2Html wit2Text wit2Out (by decide)⟩

/-! ## Empty-label defaults: claim C5 -/

theorem goodDecl_ne_nil (d : Str) (hd : GoodDecl d) : d ≠ [] := by
  obtain ⟨p, v, hp, _, _, _, _, rfl⟩ := hd
  intro hc
  simp only [List.append_eq_nil] at hc
  cases hc.2

theorem scanBound_split (hit : Str → Bool) (prev : Option Char) (s : Str)
    (h : scanBound hit prev s = true) : ∃ a b, s = a ++ b ∧ hit b = true := by
  induction s generalizing prev with
  | nil => simp [scanBound] at h
  | cons c rest ih =>
    unfold scanBound at h
    rw [Bool.or_eq_true, Bool.and_eq_true] at h
    rcases h with ⟨_, h⟩ | h
    · exact ⟨[], c :: rest, rfl, h⟩
    · obtain ⟨a, b, hab, hb⟩ := ih (some c) h
      exact ⟨c :: a, b, by simp [hab], hb⟩

theorem tokColonAt_split (w b : Str) (h : tokColonAt w b = true) :
    ∃ m ws u, b = m ++ ws ++ ':' :: u ∧ m.map Char.toLower = w ∧
      ∀ x ∈ ws, isWsJs x = true := by
  unfold tokColonAt at h
  cases hstrip : stripPrefixCI w b with
  | none => rw [hstrip] at h; cases h
  | some rest =>
    rw [hstrip] at h
    have h' : headIsChar ':' (rest.dropWhile isWsJs) = true := h
    obtain ⟨m, hm1, hm2⟩ := stripPrefixCI_some w b rest hstrip
    cases hdw : rest.dropWhile isWsJs with
    | nil => rw [hdw] at h'; cases h'
    | cons z0 zu =>
      rw [hdw] at h'
      have hz0 : z0 = ':' := by
        unfold headIsChar at h'
        simpa using h'
      have hsplitrest : rest = rest.takeWhile isWsJs ++ ':' :: zu := by
        conv_lhs => rw [← List.takeWhile_append_dropWhile (p := isWsJs) (l := rest)]
        rw [hdw, hz0]
      refine ⟨m, rest.takeWhile isWsJs, zu, ?_, hm2, fun x hx => List.mem_takeWhile_imp hx⟩
      rw [hm1]
      conv_lhs => rw [hsplitrest]
      simp

theorem splitOn_join_struct (d : Str) (L : List Str) (hsemi : ∀ e ∈ d :: L, ';' ∉ e) :
    splitOn ';' (joinSep sepSemiSp (d :: L)) = d :: L.map (fun e => ' ' :: e) := by
  induction L generalizing d with
  | nil =>
    rw [show joinSep sepSemiSp [d] = d from rfl, splitOn_no_sep ';' d (hsemi d (by simp))]
    rfl
  | cons e u ih =>
    have hjoin : joinSep sepSemiSp (d :: e :: u) =
        d ++ ';' :: ' ' :: joinSep sepSemiSp (e :: u) := by
      rw [joinSep_cons sepSemiSp d (e :: u) (by simp)]
      simp [sepSemiSp]
    rw [hjoin]
    have hrec := ih e (fun x hx => hsemi x (by
      rcases List.mem_cons.mp hx with h1 | h1
      · simp [h1]
      · simp [List.mem_cons_of_mem, h1]))
    have hsp : splitOn ';' (' ' :: joinSep sepSemiSp (e :: u)) =
        (' ' :: e) :: (u.map (fun x => ' ' :: x)) :=
      splitOn_cons_ne ';' ' ' _ (by decide) e (u.map (fun x => ' ' :: x)) hrec
    rw [splitOn_append ';' d (';' :: ' ' :: joinSep sepSemiSp (e :: u)) (hsemi d (by simp))
      [] (splitOn ';' (' ' :: joinSep sepSemiSp (e :: u))) (splitOn_cons_sep ';' _), hsp]
    simp

theorem colon_decomp_unique (x : Str) : ∀ (y x' y' : Str),
    x ++ ':' :: y = x' ++ ':' :: y' → ':' ∉ x → ':' ∉ y → x = x' ∧ y = y' := by
  induction x with
  | nil =>
    intro y x' y' h _ hy
    cases x' with
    | nil => simpa using h
    | cons c' x'' =>
      simp only [List.nil_append, List.cons_append, List.cons_eq_cons] at h
      exfalso
      apply hy
      rw [h.2]
      exact List.mem_append.mpr (Or.inr (by simp))
  | cons c x₂ ih =>
    intro y x' y' h hx hy
    cases x' with
    | nil =>
      simp only [List.cons_append, List.nil_append, List.cons_eq_cons] at h
      exact absurd (by simp [h.1]) hx
    | cons c' x₃ =>
      simp only [List.cons_append, List.cons_eq_cons] at h
      obtain ⟨h1, h2⟩ := ih y x₃ y' h.2 (fun hc => hx (List.mem_cons_of_mem _ hc)) hy
      exact ⟨by rw [h.1, h1], h2⟩

theorem ws_suffix_nil (a' m ws sp p : Str) (e : a' ++ m ++ ws = sp ++ p)
    (hws : ∀ x ∈ ws, isWsJs x = true) (hp : p ∈ allowProps) : ws = [] := by
  by_contra hne
  have he := congrArg List.reverse e
  simp only [List.reverse_append] at he
  cases hwr : ws.reverse with
  | nil => exact hne (by simpa using congrArg List.reverse hwr)
  | cons c t =>
    have hpne : p ≠ [] := (allowProps_facts p hp).1
    cases hpr : p.reverse with
    | nil => exact hpne (by simpa using congrArg List.reverse hpr)
    | cons d u =>
      rw [hwr, hpr] at he
      simp only [List.append_assoc, List.cons_append] at he
      have hcd : c = d := (List.cons_eq_cons.mp he).1
      have hcw : isWsJs c = true := hws c (by
        have : c ∈ ws.reverse := by rw [hwr]; simp
        simpa using this)
      have hdp : isWsJs d = false := (allowProps_facts p hp).2.2.2.2.1 d (by
        have : d ∈ p.reverse := by rw [hpr]; simp
        simpa using this)
      rw [hcd, hdp] at hcw
      cases hcw

/-- An occurrence of `m ++ ws ++ ':'` (semicolon-free) in a string is
confined to a single `;`-segment of it. -/
theorem occConf (s a m ws u : Str) (hs : s = a ++ m ++ ws ++ ':' :: u)
    (hm : ';' ∉ m) (hws : ∀ x ∈ ws, isWsJs x = true) :
    ∃ seg ∈ splitOn ';' s, ∃ a' u', seg = a' ++ m ++ ws ++ ':' :: u' := by
  induction a generalizing s with
  | nil =>
    cases hu : splitOn ';' u with
    | nil => exact absurd hu (splitOn_ne_nil ';' u)
    | cons h t =>
      have hx : ';' ∉ m ++ ws ++ [':'] := by
        intro hc
        rcases List.mem_append.mp hc with hc | hc
        · rcases List.mem_append.mp hc with hc | hc
          · exact hm hc
          · have := hws _ hc
            rw [show isWsJs ';' = false from by decide] at this
            cases this
        · simp at hc
      have hsel : splitOn ';' ((m ++ ws ++ [':']) ++ u) = ((m ++ ws ++ [':']) ++ h) :: t :=
        splitOn_append ';' _ u hx h t hu
      refine ⟨(m ++ ws ++ [':']) ++ h, ?_, [], h, by simp⟩
      rw [hs, show ([] ++ m ++ ws ++ ':' :: u : Str) = (m ++ ws ++ [':']) ++ u from by simp,
        hsel]
      simp
  | cons c a₂ ih =>
    have hs2 : s = c :: (a₂ ++ m ++ ws ++ ':' :: u) := by rw [hs]; simp
    by_cases hc : c = ';'
    · subst hc
      rw [hs2, splitOn_cons_sep]
      obtain ⟨seg, hseg, a', u', hsegeq⟩ := ih _ rfl
      exact ⟨seg, List.mem_cons_of_mem _ hseg, a', u', hsegeq⟩
    · obtain ⟨seg, hseg, a', u', hsegeq⟩ := ih (a₂ ++ m ++ ws ++ ':' :: u) rfl
      cases hsp : splitOn ';' (a₂ ++ m ++ ws ++ ':' :: u) with
      | nil => exact absurd hsp (splitOn_ne_nil ';' _)
      | cons h t =>
        rw [hs2, splitOn_cons_ne ';' c _ hc h t hsp]
        rw [hsp] at hseg
        rcases List.mem_cons.mp hseg with h1 | h1
        · refine ⟨c :: h, by simp, c :: a', u', ?_⟩
          rw [← h1, hsegeq]
          simp
        · exact ⟨seg, List.mem_cons_of_mem _ h1, a', u', hsegeq⟩

/-- If the `tok\s*:` test fires on a join of good declarations, some
declaration's property is exactly `tok`. -/
theorem tokColon_decl_of_test (w : Str) (L : List Str)
    (hgood : ∀ d ∈ L, GoodDecl d)
    (htest : scanBound (tokColonAt w) none (joinSep sepSemiSp L) = true)
    (hw1 : ∀ p ∈ allowProps,
      (w.length ≤ p.length ∧ toLowerStr (List.drop (p.length - w.length) p) = w) → p = w)
    (hw2 : ';' ∉ w) (hw4 : ' ' ∉ w) :
    ∃ d ∈ L, ∃ v, d = w ++ ':' :: ' ' :: v := by
  obtain ⟨a, b, hab, hhit⟩ := scanBound_split _ none _ htest
  obtain ⟨m, tws, u, hb, hlow, hwsall⟩ := tokColonAt_split w b hhit
  have hsemi_m : ';' ∉ m := by
    intro hc
    apply hw2
    rw [← hlow]
    exact List.mem_map.mpr ⟨';', hc, by decide⟩
  have hs : joinSep sepSemiSp L = a ++ m ++ tws ++ ':' :: u := by
    rw [hab, hb]
    simp
  cases L with
  | nil =>
    rw [show joinSep sepSemiSp ([] : List Str) = [] from rfl] at hs
    exact absurd hs.symm (by simp)
  | cons d0 L' =>
    obtain ⟨seg, hseg, a', u', hsegeq⟩ :=
      occConf (joinSep sepSemiSp (d0 :: L')) a m (tws) u hs
        hsemi_m hwsall
    rw [splitOn_join_struct d0 L' (fun e he => goodDecl_no_semi e (hgood e he))] at hseg
    have hform : ∃ sp d, d ∈ d0 :: L' ∧ seg = sp ++ d ∧ (sp = ([] : Str) ∨ sp = [' ']) := by
      rcases List.mem_cons.mp hseg with h1 | h1
      · exact ⟨[], d0, by simp, by simp [h1], Or.inl rfl⟩
      · obtain ⟨e, he, hee⟩ := List.mem_map.mp h1
        exact ⟨[' '], e, by simp [he], by simp [← hee], Or.inr rfl⟩
    obtain ⟨sp, d, hdL, hsegd, hsp⟩ := hform
    obtain ⟨p, v, hpallow, hvfix, hvcolon, hvsemi, hvdeny, hdpv⟩ := hgood d hdL
    have heq : (sp ++ p) ++ ':' :: (' ' :: v) =
        ((a' ++ m) ++ tws) ++ ':' :: u' := by
      have e1 : seg = (sp ++ p) ++ ':' :: (' ' :: v) := by
        rw [hsegd, hdpv]
        simp
      have e2 : seg = ((a' ++ m) ++ tws) ++ ':' :: u' := by
        rw [hsegeq]
      rw [← e1, ← e2]
    have hxnc : ':' ∉ sp ++ p := by
      intro hc
      rcases List.mem_append.mp hc with hc | hc
      · rcases hsp with rfl | rfl
        · simp at hc
        · simp at hc
      · exact (allowProps_facts p hpallow).2.2.1 hc
    have hync : ':' ∉ (' ' :: v : Str) := by
      intro hc
      rcases List.mem_cons.mp hc with hc | hc
      · cases hc
      · exact hvcolon hc
    obtain ⟨hxeq, _⟩ := colon_decomp_unique (sp ++ p) (' ' :: v)
      ((a' ++ m) ++ tws) u' heq hxnc hync
    have hwsnil : tws = [] := by
      apply ws_suffix_nil a' m (tws) sp p _ hwsall hpallow
      rw [hxeq.symm]
    rw [hwsnil, List.append_nil] at hxeq
    have hmw : m.length = w.length := by
      rw [← hlow]
      simp
    have hpw : p = w := by
      rcases List.append_eq_append_iff.mp hxeq.symm with ⟨k, hk1, hk2⟩ | ⟨k, _, hk2⟩
      · -- sp = a' ++ k, m = k ++ p
        have hkcase : k = ([] : Str) ∨ k = [' '] := by
          rcases hsp with rfl | rfl
          · have hk1' := hk1.symm
            simp only [List.append_eq_nil] at hk1'
            exact Or.inl hk1'.2
          · cases a' with
            | nil =>
              rw [List.nil_append] at hk1
              exact Or.inr hk1.symm
            | cons x a'' =>
              have hlen1 := congrArg List.length hk1
              simp only [List.length_append, List.length_cons, List.length_singleton,
                List.length_nil] at hlen1
              exact Or.inl (List.length_eq_zero.mp (by omega))
        rcases hkcase with rfl | rfl
        · rw [List.nil_append] at hk2
          apply hw1 p hpallow
          subst hk2
          rw [hmw.symm] at *
          constructor
          · exact le_refl _
          · rw [Nat.sub_self, List.drop_zero]
            exact hlow
        · exfalso
          apply hw4
          rw [← hlow, hk2]
          exact List.mem_map.mpr ⟨' ', by simp, by decide⟩
      · -- a' = sp ++ k, p = k ++ m
        apply hw1 p hpallow
        have hlen : p.length = k.length + w.length := by
          rw [hk2]
          simp [hmw]
        constructor
        · omega
        · have hdropeq : List.drop (p.length - w.length) p = m := by
            have hplen : p.length - w.length = k.length := by omega
            rw [hplen, hk2, List.drop_left]
          rw [hdropeq]
          exact hlow
    exact ⟨d, hdL, v, by rw [hdpv, hpw]⟩

theorem goodDecl_padDecl : GoodDecl padDecl :=
  ⟨paddingW, padVal, by decide, by decide, by decide, by decide, by decide, by decide⟩

theorem goodDecl_borderDecl : GoodDecl borderDecl :=
  ⟨borderW, borderVal, by decide, by decide, by decide, by decide, by decide, by decide⟩

theorem goodDecl_bgDecl : GoodDecl bgDecl :=
  ⟨backgroundColorW, bgVal, by decide, by decide, by decide, by decide, by decide, by decide⟩

theorem additionsOf_mem_good (s : Str) (e : Str) (he : e ∈ additionsOf s) : GoodDecl e := by
  rcases mem_additionsOf s e he with rfl | rfl | rfl
  · exact goodDecl_padDecl
  · exact goodDecl_borderDecl
  · exact goodDecl_bgDecl

theorem addDefaults_join (L0 : List Str) (hgood : ∀ d ∈ L0, GoodDecl d) :
    ∃ L1, addDefaults (joinSep sepSemiSp L0) = joinSep sepSemiSp (L0 ++ L1) ∧
      (∀ d ∈ L1, GoodDecl d) ∧
      (hasPaddingTest (joinSep sepSemiSp L0) = false → padDecl ∈ L1) ∧
      (hasBorderTest (joinSep sepSemiSp L0) = false → borderDecl ∈ L1) := by
  by_cases hA : additionsOf (joinSep sepSemiSp L0) = []
  · refine ⟨[], ?_, by simp, ?_, ?_⟩
    · unfold addDefaults
      rw [if_pos hA]
      simp
    · intro hpadf
      exfalso
      unfold additionsOf at hA
      rw [hpadf] at hA
      simp at hA
    · intro hbordf
      exfalso
      unfold additionsOf at hA
      rw [hbordf] at hA
      simp at hA
  · have hAgood : ∀ e ∈ additionsOf (joinSep sepSemiSp L0), GoodDecl e :=
      fun e he => additionsOf_mem_good _ e he
    have hAne : ∀ e ∈ additionsOf (joinSep sepSemiSp L0), e ≠ [] :=
      fun e he => goodDecl_ne_nil e (hAgood e he)
    have hjoinA : joinSep sepSemiSp (additionsOf (joinSep sepSemiSp L0)) ≠ [] :=
      joinSep_ne_nil_of _ _ hA hAne
    refine ⟨additionsOf (joinSep sepSemiSp L0), ?_, hAgood, ?_, ?_⟩
    · unfold addDefaults
      rw [if_neg hA]
      by_cases hL0 : L0 = []
      · subst hL0
        rw [show joinSep sepSemiSp ([] : List Str) = [] from rfl]
        rw [List.filter_cons_of_neg (by simp), List.filter_cons_of_pos (by
          simpa using hjoinA), List.filter_nil]
        rfl
      · have hsne : joinSep sepSemiSp L0 ≠ [] :=
          joinSep_ne_nil_of _ _ hL0 (fun d hd => goodDecl_ne_nil d (hgood d hd))
        rw [List.filter_cons_of_pos (by simpa using hsne), List.filter_cons_of_pos (by
          simpa using hjoinA), List.filter_nil]
        rw [show joinSep sepSemiSp [joinSep sepSemiSp L0,
            joinSep sepSemiSp (additionsOf (joinSep sepSemiSp L0))] =
          joinSep sepSemiSp L0 ++ sepSemiSp ++
            joinSep sepSemiSp (additionsOf (joinSep sepSemiSp L0)) from rfl]
        rw [joinSep_append sepSemiSp L0 _ hL0 hA]
    · intro hpadf
      unfold additionsOf
      rw [hpadf]
      simp
    · intro hbordf
      unfold additionsOf
      rw [hbordf]
      simp

theorem declsOf_has_prop (LL : List Str) (hgood : ∀ d ∈ LL, GoodDecl d)
    (w v d0 : Str) (hd0 : d0 ∈ LL) (hshape : d0 = w ++ ':' :: ' ' :: v) :
    ∃ d ∈ declsOf (joinSep sepSemiSp LL), propNameOf d = w := by
  have hL : declsOf (joinSep sepSemiSp LL) = LL.map trimChars :=
    declsOf_join_map LL (fun d hd => goodDecl_no_semi d (hgood d hd))
      (fun d hd => goodDecl_trim_ne_nil d (hgood d hd))
  refine ⟨trimChars d0, by rw [hL]; exact List.mem_map.mpr ⟨d0, hd0, rfl⟩, ?_⟩
  obtain ⟨p', v', hp', _, hv'colon, _, hshape', hcase⟩ := goodDecl_trim d0 (hgood d0 hd0)
  have hp'c : ':' ∉ p' := (allowProps_facts p' hp').2.2.1
  have heq : p' ++ ':' :: (' ' :: v') = w ++ ':' :: (' ' :: v) := by
    rw [← hshape', ← hshape]
  have hpw : p' = w :=
    (colon_decomp_unique p' (' ' :: v') w (' ' :: v) heq hp'c (by
      intro hc
      rcases List.mem_cons.mp hc with hc | hc
      · cases hc
      · exact hv'colon hc)).1
  rcases hcase with ⟨htr, _⟩ | ⟨htr, _⟩
  · rw [htr, ← hpw]
    have := propNameOf_decl p' [] hp'c
    simpa using this
  · rw [htr, ← hpw]
    exact propNameOf_decl p' (' ' :: v') hp'c

/-- C5: when the label is empty or all-whitespace, the emitted style
attribute value contains both a `padding` declaration and a `border`
declaration — surviving sanitized ones or the added defaults. -/
theorem C5_empty_label_defaults (html exactText out : Str)
    (hempty : trimChars exactText = [])
    (hc : coerceSingleButton html exactText = Except.ok out) :
    ∃ S rest, out = openSpW ++ (stylePieceOf S ++ rest) ∧ '"' ∉ S ∧
      (∃ d ∈ declsOf S, propNameOf d = paddingW) ∧
      (∃ d ∈ declsOf S, propNameOf d = borderW) := by
  unfold coerceSingleButton at hc
  cases hm : buttonMatches html with
  | nil =>
    rw [hm] at hc
    cases hc
  | cons m ms =>
    rw [hm] at hc
    have hout : out = buildButton m exactText := (Except.ok.inj hc).symm
    obtain ⟨L0, hL0join, hL0good⟩ := sanitizeStyle_eq_join (styleAttrOf m)
    have hSdef : styleValueOf m exactText = addDefaults (sanitizeStyle (styleAttrOf m)) := by
      unfold styleValueOf
      rw [if_pos hempty]
  /- the final style value is a join of good declarations containing
     padding and border declarations -/
    obtain ⟨L1, hjoin1, hL1good, hpadd, hbord⟩ :=
      addDefaults_join L0 (fun d hd => (hL0good d hd).1)
    have hS : styleValueOf m exactText = joinSep sepSemiSp (L0 ++ L1) := by
      rw [hSdef, hL0join, hjoin1]
    have hgood01 : ∀ d ∈ L0 ++ L1, GoodDecl d := by
      intro d hd
      rcases List.mem_append.mp hd with hd | hd
      · exact (hL0good d hd).1
      · exact hL1good d hd
    have hpadDecl : ∃ d ∈ L0 ++ L1, ∃ v, d = paddingW ++ ':' :: ' ' :: v := by
      by_cases hpt : hasPaddingTest (joinSep sepSemiSp L0) = true
      · obtain ⟨d, hd, v, hdv⟩ := tokColon_decl_of_test paddingW L0
          (fun d hd => (hL0good d hd).1) hpt (by decide) (by decide) (by decide)
        exact ⟨d, List.mem_append_left _ hd, v, hdv⟩
      · exact ⟨padDecl, List.mem_append_right _ (hpadd (by simpa using hpt)), padVal, rfl⟩
    have hbordDecl : ∃ d ∈ L0 ++ L1, ∃ v, d = borderW ++ ':' :: ' ' :: v := by
      by_cases hbt : hasBorderTest (joinSep sepSemiSp L0) = true
      · obtain ⟨d, hd, v, hdv⟩ := tokColon_decl_of_test borderW L0
          (fun d hd => (hL0good d hd).1) hbt (by decide) (by decide) (by decide)
        exact ⟨d, List.mem_append_left _ hd, v, hdv⟩
      · exact ⟨borderDecl, List.mem_append_right _ (hbord (by simpa using hbt)), borderVal, rfl⟩
    have hSne : styleValueOf m exactText ≠ [] := by
      rw [hS]
      obtain ⟨d, hd, _⟩ := hpadDecl
      apply joinSep_ne_nil_of _ _ (fun hnil => by rw [hnil] at hd; simp at hd)
      exact fun e he => goodDecl_ne_nil e (hgood01 e he)
    have hstylene : stylePieceOf (styleValueOf m exactText) ≠ [] := by
      unfold stylePieceOf
      intro hcon
      have := congrArg List.length hcon
      simp [styleEqW] at this
    have hattr : attrsOf m exactText = stylePieceOf (styleValueOf m exactText) ++
        ' ' :: joinSep [' ']
          (([dataAttrsStr m, typeW]).filter (fun d => d ≠ [])) := by
      unfold attrsOf
      rw [if_neg hSne]
      rw [List.filter_cons_of_pos (by simpa using hstylene)]
      have htail : ([dataAttrsStr m, typeW]).filter (fun d => d ≠ []) ≠ [] := by
        by_cases hda : dataAttrsStr m = []
        · rw [hda]
          decide
        · rw [List.filter_cons_of_pos (by simpa using hda)]
          simp
      rw [joinSep_cons [' '] _ _ htail]
      simp
    refine ⟨styleValueOf m exactText,
      ' ' :: joinSep [' '] (([dataAttrsStr m, typeW]).filter (fun d => d ≠ [])) ++
        ('>' :: (escapeHtml exactText ++ closeW)), ?_,
      quot_not_mem_styleValueOf m exactText, ?_, ?_⟩
    · rw [hout]
      unfold buildButton
      rw [hattr]
      simp
    · obtain ⟨d0, hd0, v, hdv⟩ := hpadDecl
      have := declsOf_has_prop (L0 ++ L1) hgood01 paddingW v d0 hd0 hdv
      rw [← hS] at this
      exact this
    · obtain ⟨d0, hd0, v, hdv⟩ := hbordDecl
      have := declsOf_has_prop (L0 ++ L1) hgood01 borderW v d0 hd0 hdv
      rw [← hS] at this
      exact this

theorem C5_witness :
    trimChars wit5Text = [] ∧
      coerceSingleButton wit5Html wit5Text =
        Except.ok (buildButton wit5Html wit5Text) ∧
      (∃ S rest, buildButton wit5Html wit5Text = openSpW ++ (stylePieceOf S ++ rest) ∧
        '"' ∉ S ∧ (∃ d ∈ declsOf S, propNameOf d = paddingW) ∧
        (∃ d ∈ declsOf S, propNameOf d = borderW)) :=
  ⟨by decide, by decide,
    C5_empty_label_defaults wit5Html wit5Text (buildButton wit5Html wit5Text)
      (by decide) (by decide)⟩

/-! ## Idempotence of the coercion on clean inputs

Scanning an output button re-discovers exactly the attributes that were
emitted: the lemmas below characterize the attribute scan, the style
capture and the button-fragment match on the assembled output. -/

theorem stripPrefixCI_refl (m X : Str) :
    stripPrefixCI (m.map Char.toLower) (m ++ X) = some X := by
  induction m with
  | nil => rfl
  | cons c t ih =>
    have h : stripPrefixCI (Char.toLower c :: t.map Char.toLower) (c :: (t ++ X)) =
        (if c.toLower = Char.toLower c then stripPrefixCI (t.map Char.toLower) (t ++ X)
         else none) := rfl
    rw [List.map_cons, List.cons_append, h, if_pos rfl]
    exact ih

theorem matchAttrHead_not_ws (c : Char) (r : Str) (h : isWsJs c = false) :
    matchAttrHead (c :: r) = none := by
  have hcons : matchAttrHead (c :: r) =
      (if isWsJs c then
        if r.takeWhile attrNameChar = [] then none
        else
          match r.dropWhile attrNameChar with
          | e :: q :: r3 =>
            if e = '=' ∧ q = '"' then
              if r3.dropWhile (fun d => d ≠ '"') = [] then none
              else some ((r.takeWhile attrNameChar, r3.takeWhile (fun d => d ≠ '"')),
                (r3.dropWhile (fun d => d ≠ '"')).drop 1)
            else none
          | _ => none
      else none) := rfl
  rw [hcons, if_neg (by simp [h])]

theorem matchAttrHead_quot (s : Str) (p : (Str × Str) × Str)
    (h : matchAttrHead s = some p) : '"' ∈ s := by
  obtain ⟨c, rest, r3, hs, -, -, -, hdw, -, -, -⟩ := matchAttrHead_some s p h
  have hq : '"' ∈ rest.dropWhile attrNameChar := by rw [hdw]; simp
  have hsub : rest.dropWhile attrNameChar <:+ rest := List.dropWhile_suffix _
  rw [hs]
  exact List.mem_cons_of_mem c (hsub.subset hq)

theorem matchAttrHead_rest_lt (s : Str) (p : (Str × Str) × Str)
    (h : matchAttrHead s = some p) : p.2.length < s.length := by
  obtain ⟨c, rest, r3, hs, -, -, -, hdw, -, hrem, -⟩ := matchAttrHead_some s p h
  have h1 : (rest.dropWhile attrNameChar).length ≤ rest.length :=
    (List.dropWhile_sublist _).length_le
  rw [hdw] at h1
  simp only [List.length_cons] at h1
  have h2 : (r3.dropWhile (fun d => d ≠ '"')).length ≤ r3.length :=
    (List.dropWhile_sublist _).length_le
  have h3 : p.2.length ≤ (r3.dropWhile (fun d => d ≠ '"')).length := by
    rw [hrem]
    simp
  rw [hs]
  simp only [List.length_cons]
  omega

theorem collectAttrsF_congr (f : Nat) : ∀ (g : Nat) (s : Str), s.length ≤ f →
    s.length ≤ g → collectAttrsF f s = collectAttrsF g s := by
  induction f with
  | zero =>
    intro g s hf _
    have hs : s = [] := List.eq_nil_of_length_eq_zero (Nat.le_zero.mp hf)
    subst hs
    cases g <;> rfl
  | succ f ih =>
    intro g s hf hg
    cases s with
    | nil => cases g <;> rfl
    | cons c rest =>
      cases g with
      | zero => simp at hg
      | succ g =>
        rw [collectAttrsF_succ, collectAttrsF_succ]
        simp only [List.length_cons] at hf hg
        cases hm : matchAttrHead (c :: rest) with
        | none => exact ih g rest (by omega) (by omega)
        | some pr =>
          obtain ⟨p1, r1⟩ := pr
          have hlt : r1.length < rest.length + 1 := by
            simpa using matchAttrHead_rest_lt (c :: rest) (p1, r1) hm
          show p1 :: collectAttrsF f r1 = p1 :: collectAttrsF g r1
          rw [ih g r1 (by omega) (by omega)]

theorem collectAttrs_cons_match (c : Char) (rest : Str) (p : Str × Str) (r : Str)
    (h : matchAttrHead (c :: rest) = some (p, r)) :
    collectAttrs (c :: rest) = p :: collectAttrs r := by
  have hlt : r.length < rest.length + 1 := by
    simpa using matchAttrHead_rest_lt (c :: rest) (p, r) h
  unfold collectAttrs
  simp only [List.length_cons]
  rw [collectAttrsF_succ, h]
  show p :: collectAttrsF rest.length r = p :: collectAttrsF r.length r
  rw [collectAttrsF_congr rest.length r.length r (by omega) (by omega)]

theorem collectAttrs_cons_skip (c : Char) (rest : Str)
    (h : matchAttrHead (c :: rest) = none) :
    collectAttrs (c :: rest) = collectAttrs rest := by
  unfold collectAttrs
  simp only [List.length_cons]
  rw [collectAttrsF_succ, h]

theorem collectAttrs_skip_left (pre z : Str) (h : ∀ c ∈ pre, isWsJs c = false) :
    collectAttrs (pre ++ z) = collectAttrs z := by
  induction pre with
  | nil => rfl
  | cons c t ih =>
    rw [List.cons_append,
      collectAttrs_cons_skip c (t ++ z) (matchAttrHead_not_ws c _ (h c (by simp))),
      ih (fun x hx => h x (by simp [hx]))]

theorem collectAttrs_of_no_quot (s : Str) (h : '"' ∉ s) : collectAttrs s = [] := by
  induction s with
  | nil => rfl
  | cons c rest ih =>
    cases hm : matchAttrHead (c :: rest) with
    | some p => exact absurd (matchAttrHead_quot _ p hm) h
    | none =>
      rw [collectAttrs_cons_skip c rest hm]
      exact ih (fun hx => h (List.mem_cons_of_mem c hx))

theorem matchAttrHead_piece (n w tail : Str)
    (hn : ∀ x ∈ n, attrNameChar x = true) (hne : n ≠ []) (hw : '"' ∉ w) :
    matchAttrHead (' ' :: (n ++ '=' :: '"' :: (w ++ '"' :: tail))) =
      some ((n, w), tail) := by
  have hwq : ∀ x ∈ w, (decide (x ≠ '"')) = true := by
    intro x hx
    simp only [decide_eq_true_eq]
    intro hc
    exact hw (hc ▸ hx)
  have htake : (n ++ '=' :: '"' :: (w ++ '"' :: tail)).takeWhile attrNameChar = n := by
    rw [takeWhile_append_all n _ hn, List.takeWhile_cons_of_neg (by decide),
      List.append_nil]
  have hdrop : (n ++ '=' :: '"' :: (w ++ '"' :: tail)).dropWhile attrNameChar =
      '=' :: '"' :: (w ++ '"' :: tail) := by
    rw [dropWhile_append_all n _ hn, List.dropWhile_cons_of_neg (by decide)]
  have hdw : (w ++ '"' :: tail).dropWhile (fun d => d ≠ '"') = '"' :: tail := by
    rw [dropWhile_append_all w _ hwq, List.dropWhile_cons_of_neg (by simp)]
  have htw : (w ++ '"' :: tail).takeWhile (fun d => d ≠ '"') = w := by
    rw [takeWhile_append_all w _ hwq, List.takeWhile_cons_of_neg (by simp),
      List.append_nil]
  have hcons : matchAttrHead (' ' :: (n ++ '=' :: '"' :: (w ++ '"' :: tail))) =
      (if isWsJs ' ' then
        if (n ++ '=' :: '"' :: (w ++ '"' :: tail)).takeWhile attrNameChar = [] then none
        else
          match (n ++ '=' :: '"' :: (w ++ '"' :: tail)).dropWhile attrNameChar with
          | e :: q :: r3 =>
            if e = '=' ∧ q = '"' then
              if r3.dropWhile (fun d => d ≠ '"') = [] then none
              else some (((n ++ '=' :: '"' :: (w ++ '"' :: tail)).takeWhile attrNameChar,
                r3.takeWhile (fun d => d ≠ '"')),
                (r3.dropWhile (fun d => d ≠ '"')).drop 1)
            else none
          | _ => none
      else none) := rfl
  rw [hcons, if_pos (by decide), htake, hdrop, if_neg hne]
  show (if '=' = '=' ∧ '"' = '"' then
      if (w ++ '"' :: tail).dropWhile (fun d => d ≠ '"') = [] then none
      else some ((n, (w ++ '"' :: tail).takeWhile (fun d => d ≠ '"')),
        ((w ++ '"' :: tail).dropWhile (fun d => d ≠ '"')).drop 1)
    else none) = some ((n, w), tail)
  have hne2 : ¬(w ++ '"' :: tail).dropWhile (fun d => d ≠ '"') = [] := by
    rw [hdw]
    simp
  rw [if_pos ⟨rfl, rfl⟩, if_neg hne2, hdw, htw]
  rfl

theorem collectAttrsF_name_ne (f : Nat) (s : Str) (n v : Str)
    (h : (n, v) ∈ collectAttrsF f s) : n ≠ [] := by
  induction f generalizing s with
  | zero =>
    have h0 : collectAttrsF 0 s = [] := rfl
    rw [h0] at h
    simp at h
  | succ f ih =>
    cases s with
    | nil =>
      have h0 : collectAttrsF (f + 1) [] = [] := rfl
      rw [h0] at h
      simp at h
    | cons c rest =>
      rw [collectAttrsF_succ] at h
      cases hm : matchAttrHead (c :: rest) with
      | none =>
        rw [hm] at h
        exact ih rest h
      | some pr =>
        obtain ⟨p1, r1⟩ := pr
        rw [hm] at h
        have h' : (n, v) ∈ p1 :: collectAttrsF f r1 := h
        rcases List.mem_cons.mp h' with h1 | h1
        · obtain ⟨c', rest', r3, -, -, -, hnn, -, -, -, -⟩ :=
            matchAttrHead_some _ (p1, r1) hm
          rw [← h1] at hnn
          simpa using hnn
        · exact ih _ h1

theorem dataPair_name_ne (btnTag : Str) (n v : Str) (h : (n, v) ∈ dataPairsOf btnTag) :
    n ≠ [] := by
  unfold dataPairsOf at h
  exact collectAttrsF_name_ne btnTag.length btnTag n v (List.mem_filter.mp h).1

theorem collectAttrs_chain (l : List (Str × Str)) :
    ∀ z : Str, l ≠ [] →
    (∀ pr ∈ l, (∀ x ∈ pr.1, attrNameChar x = true) ∧ pr.1 ≠ [] ∧ '"' ∉ pr.2) →
    collectAttrs (' ' :: (joinSep [' '] (l.map (fun pr => pieceStr pr.1 pr.2)) ++ z)) =
      l ++ collectAttrs z := by
  induction l with
  | nil =>
    intro z hl _
    exact absurd rfl hl
  | cons pr t ih =>
    intro z _ hgood
    obtain ⟨n, w⟩ := pr
    obtain ⟨hn, hne, hw⟩ := hgood (n, w) (by simp)
    cases t with
    | nil =>
      have hj : joinSep [' '] ([(n, w)].map (fun pr => pieceStr pr.1 pr.2)) =
          pieceStr n w := rfl
      rw [hj]
      have hsh : pieceStr n w ++ z = n ++ '=' :: '"' :: (w ++ '"' :: z) := by
        simp [pieceStr]
      rw [hsh, collectAttrs_cons_match ' ' _ (n, w) z (matchAttrHead_piece n w z hn hne hw)]
      rfl
    | cons pr2 t2 =>
      have hj : joinSep [' '] (((n, w) :: pr2 :: t2).map (fun pr => pieceStr pr.1 pr.2)) =
          pieceStr n w ++ [' '] ++
            joinSep [' '] ((pr2 :: t2).map (fun pr => pieceStr pr.1 pr.2)) := by
        rw [List.map_cons, joinSep_cons [' '] _ _ (by simp)]
      rw [hj]
      have hsh : (pieceStr n w ++ [' '] ++
            joinSep [' '] ((pr2 :: t2).map (fun pr => pieceStr pr.1 pr.2))) ++ z =
          n ++ '=' :: '"' :: (w ++ '"' ::
            (' ' :: (joinSep [' '] ((pr2 :: t2).map (fun pr => pieceStr pr.1 pr.2)) ++ z))) := by
        simp [pieceStr]
      rw [hsh, collectAttrs_cons_match ' ' _ (n, w) _ (matchAttrHead_piece n w _ hn hne hw),
        ih z (by simp) (fun q hq => hgood q (List.mem_cons_of_mem _ hq))]
      rfl

theorem pieceStr_style (S : Str) : pieceStr styleNameW S = stylePieceOf S := rfl

theorem pieceStr_attrText (n v : Str) : pieceStr n (escapeAttr v) = attrText n v := rfl

theorem pieceStr_type : pieceStr typeNameW buttonValW = typeW := rfl

theorem joinSep_pair (sep a b : Str) : joinSep sep [a, b] = a ++ sep ++ b := rfl

theorem joinSep_triple (sep a b c : Str) :
    joinSep sep [a, b, c] = a ++ sep ++ (b ++ sep ++ c) := rfl

theorem map_pieceStr_escape (dp : List (Str × Str)) :
    (dp.map (fun p => (p.1, escapeAttr p.2))).map (fun pr => pieceStr pr.1 pr.2) =
      dp.map (fun p => attrText p.1 p.2) := by
  rw [List.map_map]
  rfl

theorem dataAttrsStr_nil (m : Str) (h : dataPairsOf m = []) : dataAttrsStr m = [] := by
  unfold dataAttrsStr
  rw [h]
  rfl

theorem dataAttrsStr_ne_nil (m : Str) (h : dataPairsOf m ≠ []) : dataAttrsStr m ≠ [] := by
  unfold dataAttrsStr
  apply joinSep_ne_nil_of
  · intro hc
    exact h (List.map_eq_nil_iff.mp hc)
  · intro d hd
    obtain ⟨q, hq, hqe⟩ := List.mem_map.mp hd
    rw [← hqe]
    exact attrText_ne_nil q.1 q.2

theorem flatPairsOf_ne_nil (m t : Str) : flatPairsOf m t ≠ [] := by
  unfold flatPairsOf
  simp

theorem flatPairsOf_good (m t : Str) (pr : Str × Str) (h : pr ∈ flatPairsOf m t) :
    (∀ x ∈ pr.1, attrNameChar x = true) ∧ pr.1 ≠ [] ∧ '"' ∉ pr.2 := by
  unfold flatPairsOf at h
  rcases List.mem_append.mp h with h1 | h1
  · by_cases hS : styleValueOf m t = []
    · rw [if_pos hS] at h1
      simp at h1
    · rw [if_neg hS] at h1
      have h2 : pr = (styleNameW, styleValueOf m t) := by simpa using h1
      subst h2
      refine ⟨?_, ?_, quot_not_mem_styleValueOf m t⟩
      · show ∀ x ∈ styleNameW, attrNameChar x = true
        decide
      · show styleNameW ≠ []
        decide
  · rcases List.mem_append.mp h1 with h2 | h2
    · obtain ⟨⟨n, v⟩, hnv, hpe⟩ := List.mem_map.mp h2
      subst hpe
      exact ⟨(dataPair_props m n v hnv).1, dataPair_name_ne m n v hnv,
        quot_not_mem_escapeAttr v⟩
    · have h3 : pr = (typeNameW, buttonValW) := by simpa using h2
      subst h3
      exact ⟨by decide, by decide, by decide⟩

theorem attrsOf_flat (m t : Str) :
    attrsOf m t =
      joinSep [' '] ((flatPairsOf m t).map (fun pr => pieceStr pr.1 pr.2)) := by
  unfold attrsOf flatPairsOf
  by_cases hS : styleValueOf m t = []
  · by_cases hdp : dataPairsOf m = []
    · rw [if_pos hS, if_pos hS, hdp, dataAttrsStr_nil m hdp]
      rfl
    · have hdane : dataAttrsStr m ≠ [] := dataAttrsStr_ne_nil m hdp
      have hmapne : (dataPairsOf m).map (fun p => attrText p.1 p.2) ≠ [] := by
        intro hc
        exact hdp (List.map_eq_nil_iff.mp hc)
      rw [if_pos hS, if_pos hS,
        List.filter_cons_of_neg (by simp),
        List.filter_cons_of_pos (by simpa using hdane),
        List.filter_cons_of_pos (by decide), List.filter_nil,
        List.nil_append, List.map_append, map_pieceStr_escape,
        joinSep_append [' '] _ _ hmapne (by simp),
        joinSep_pair]
      rfl
  · by_cases hdp : dataPairsOf m = []
    · rw [if_neg hS, if_neg hS, hdp, dataAttrsStr_nil m hdp]
      rfl
    · have hdane : dataAttrsStr m ≠ [] := dataAttrsStr_ne_nil m hdp
      have hsp : stylePieceOf (styleValueOf m t) ≠ [] := by
        simp [stylePieceOf, styleEqW]
      have hmapne : (dataPairsOf m).map (fun p => attrText p.1 p.2) ≠ [] := by
        intro hc
        exact hdp (List.map_eq_nil_iff.mp hc)
      rw [if_neg hS, if_neg hS,
        List.filter_cons_of_pos (by simpa using hsp),
        List.filter_cons_of_pos (by simpa using hdane),
        List.filter_cons_of_pos (by decide), List.filter_nil,
        List.singleton_append, List.map_cons, List.map_append, map_pieceStr_escape,
        joinSep_triple,
        joinSep_cons [' '] _ _ (by simp),
        joinSep_append [' '] _ _ hmapne (by simp)]
      rfl

theorem styleAttrOf_cons (c : Char) (rest : Str) :
    styleAttrOf (c :: rest) =
      (match styleCapAt (c :: rest) with
       | some v => v
       | none => styleAttrOf rest) := rfl

theorem styleCapAt_not_s (c : Char) (r : Str) (h : ¬c.toLower = 's') :
    styleCapAt (c :: r) = none := by
  have hstrip : stripPrefixCI styleEqW (c :: r) =
      (if c.toLower = 's' then stripPrefixCI "tyle=\"".data r else none) := rfl
  unfold styleCapAt
  rw [hstrip, if_neg h]

theorem styleAttrOf_skip_left (pre z : Str) (h : ∀ c ∈ pre, ¬c.toLower = 's') :
    styleAttrOf (pre ++ z) = styleAttrOf z := by
  induction pre with
  | nil => rfl
  | cons c t ih =>
    rw [List.cons_append, styleAttrOf_cons, styleCapAt_not_s c _ (h c (by simp))]
    exact ih (fun x hx => h x (by simp [hx]))

theorem styleCapAt_quot (s v : Str) (h : styleCapAt s = some v) : '"' ∈ s := by
  obtain ⟨r, hstrip, -⟩ := styleCapAt_some s v h
  obtain ⟨m, hm, hlow⟩ := stripPrefixCI_some styleEqW s r hstrip
  have hq : '"' ∈ m.map Char.toLower := by
    rw [hlow]
    decide
  obtain ⟨x, hx, hxe⟩ := List.mem_map.mp hq
  have hx2 : x = '"' := toLower_eq_of_target x '"' (by decide) hxe
  rw [hm]
  exact List.mem_append.mpr (Or.inl (hx2 ▸ hx))

theorem styleAttrOf_no_quot (s : Str) (h : '"' ∉ s) : styleAttrOf s = [] := by
  induction s with
  | nil => rfl
  | cons c rest ih =>
    rw [styleAttrOf_cons]
    cases hcap : styleCapAt (c :: rest) with
    | some v => exact absurd (styleCapAt_quot _ v hcap) h
    | none => exact ih (fun hx => h (List.mem_cons_of_mem c hx))

theorem styleCapAt_piece (S z : Str) (hq : '"' ∉ S) :
    styleCapAt (stylePieceOf S ++ z) = some S := by
  have hsh : stylePieceOf S ++ z = styleEqW ++ (S ++ '"' :: z) := by
    simp [stylePieceOf]
  have hstrip : stripPrefixCI styleEqW (styleEqW ++ (S ++ '"' :: z)) =
      some (S ++ '"' :: z) := by
    have h := stripPrefixCI_refl styleEqW (S ++ '"' :: z)
    rwa [show styleEqW.map Char.toLower = styleEqW from by decide] at h
  have hSq : ∀ x ∈ S, (decide (x ≠ '"')) = true := by
    intro x hx
    simp only [decide_eq_true_eq]
    intro hc
    exact hq (hc ▸ hx)
  have hdw : (S ++ '"' :: z).dropWhile (fun d => d ≠ '"') = '"' :: z := by
    rw [dropWhile_append_all S _ hSq, List.dropWhile_cons_of_neg (by simp)]
  have htw : (S ++ '"' :: z).takeWhile (fun d => d ≠ '"') = S := by
    rw [takeWhile_append_all S _ hSq, List.takeWhile_cons_of_neg (by simp),
      List.append_nil]
  rw [hsh]
  unfold styleCapAt
  rw [hstrip]
  show (if (S ++ '"' :: z).dropWhile (fun d => d ≠ '"') = [] then none
    else some ((S ++ '"' :: z).takeWhile (fun d => d ≠ '"'))) = some S
  rw [if_neg (by rw [hdw]; simp), htw]

theorem styleAttrOf_piece (S z : Str) (hq : '"' ∉ S) :
    styleAttrOf (stylePieceOf S ++ z) = S := by
  have hsh : stylePieceOf S ++ z = 's' :: (("tyle=\"".data ++ (S ++ ['"'])) ++ z) := rfl
  rw [hsh, styleAttrOf_cons, ← hsh, styleCapAt_piece S z hq]

theorem lt_not_mem_attrsOf (m t : Str) (h3 : '<' ∉ styleValueOf m t) :
    '<' ∉ attrsOf m t := by
  intro h
  unfold attrsOf at h
  rcases mem_joinSep _ _ _ h with h1 | ⟨d, hd, hx⟩
  · exact absurd h1 (by decide)
  · rw [List.mem_filter] at hd
    rcases List.mem_cons.mp hd.1 with h2 | h2
    · by_cases hS : styleValueOf m t = []
      · rw [if_pos hS] at h2
        subst h2
        simp at hx
      · rw [if_neg hS] at h2
        subst h2
        unfold stylePieceOf at hx
        rcases List.mem_append.mp hx with h4 | h4
        · exact absurd h4 (by decide)
        · rcases List.mem_append.mp h4 with h5 | h5
          · exact h3 h5
          · exact absurd h5 (by decide)
    · rcases List.mem_cons.mp h2 with h4 | h4
      · subst h4
        unfold dataAttrsStr at hx
        rcases mem_joinSep _ _ _ hx with h5 | ⟨e, he, hxe⟩
        · exact absurd h5 (by decide)
        · obtain ⟨q, hq, hqe⟩ := List.mem_map.mp he
          rw [← hqe] at hxe
          unfold attrText at hxe
          have hq2 : (q.1, q.2) ∈ dataPairsOf m := by
            rw [Prod.mk.eta]
            exact hq
          rcases List.mem_append.mp hxe with h6 | h6
          · exact (attrNameChar_facts '<' ((dataPair_props m q.1 q.2 hq2).1 '<' h6)).2.2.1 rfl
          · simp only [List.mem_cons, List.mem_append, List.mem_singleton] at h6
            rcases h6 with h7 | h7 | h7 | h7
            · exact absurd h7 (by decide)
            · exact absurd h7 (by decide)
            · exact lt_not_mem_escapeAttr q.2 h7
            · exact absurd h7 (by decide)
      · rcases List.mem_cons.mp h4 with h5 | h5
        · subst h5
          exact absurd hx (by decide)
        · simp at h5

theorem findClose_cons (c : Char) (rest : Str) :
    findClose (c :: rest) =
      (match stripPrefixCI closeW (c :: rest) with
       | some r => some ((c :: rest).take closeW.length, r)
       | none =>
         match findClose rest with
         | some (frag, r) => some (c :: frag, r)
         | none => none) := rfl

theorem stripPrefixCI_closeW_not_lt (c : Char) (r : Str) (h : c ≠ '<') :
    stripPrefixCI closeW (c :: r) = none := by
  have hcons : stripPrefixCI closeW (c :: r) =
      (if c.toLower = '<' then stripPrefixCI "/button>".data r else none) := rfl
  have hne : ¬c.toLower = '<' := fun hc => h (toLower_eq_of_target c '<' (by decide) hc)
  rw [hcons, if_neg hne]

theorem findClose_clean (mid : Str) (h : '<' ∉ mid) :
    findClose (mid ++ closeW) = some (mid ++ closeW, []) := by
  induction mid with
  | nil =>
    show findClose closeW = some (closeW, [])
    decide
  | cons c t ih =>
    rw [List.cons_append, findClose_cons,
      stripPrefixCI_closeW_not_lt c _ (fun hc => h (by rw [hc]; exact List.mem_cons_self '<' t)),
      ih (fun hx => h (List.mem_cons_of_mem c hx))]

theorem buttonMatchesF_nil (f : Nat) : buttonMatchesF f [] = [] := by
  cases f <;> rfl

theorem buttonMatchesF_cons (f : Nat) (c : Char) (rest : Str) :
    buttonMatchesF (f + 1) (c :: rest) =
      (match matchButtonAt (c :: rest) with
       | some (frag, r) => frag :: buttonMatchesF f r
       | none => buttonMatchesF f rest) := rfl

theorem matchButtonAt_clean (mid : Str) (hlt : '<' ∉ mid)
    (hb : boundaryAfterOpen (mid ++ closeW) = true) :
    matchButtonAt (openW ++ (mid ++ closeW)) = some (openW ++ (mid ++ closeW), []) := by
  unfold matchButtonAt
  have hstrip : stripPrefixCI openW (openW ++ (mid ++ closeW)) = some (mid ++ closeW) := by
    have h := stripPrefixCI_refl openW (mid ++ closeW)
    rwa [show openW.map Char.toLower = openW from by decide] at h
  rw [hstrip]
  show (if boundaryAfterOpen (mid ++ closeW) then
      match findClose (mid ++ closeW) with
      | some (frag, rest) =>
        some ((openW ++ (mid ++ closeW)).take openW.length ++ frag, rest)
      | none => none
    else none) = some (openW ++ (mid ++ closeW), [])
  rw [if_pos hb, findClose_clean mid hlt]
  have htake : (openW ++ (mid ++ closeW)).take openW.length = openW :=
    List.take_left openW (mid ++ closeW)
  rw [htake]

theorem buttonMatches_wrap (mrest : Str) (hlt : '<' ∉ ' ' :: mrest) :
    buttonMatches (openW ++ ((' ' :: mrest) ++ closeW)) =
      [openW ++ ((' ' :: mrest) ++ closeW)] := by
  have hb : boundaryAfterOpen ((' ' :: mrest) ++ closeW) = true := by
    show !(isWordChar ' ') = true
    decide
  have hmb := matchButtonAt_clean (' ' :: mrest) hlt hb
  have hsh : openW ++ ((' ' :: mrest) ++ closeW) =
      '<' :: ("button".data ++ ((' ' :: mrest) ++ closeW)) := rfl
  unfold buttonMatches
  rw [hsh]
  simp only [List.length_cons]
  rw [buttonMatchesF_cons, ← hsh, hmb]
  simp only [buttonMatchesF_nil]

theorem attrsOf_style_head (m t : Str) (hS : styleValueOf m t ≠ []) :
    ∃ J, attrsOf m t = stylePieceOf (styleValueOf m t) ++ ([' '] ++ J) := by
  rw [attrsOf_flat]
  unfold flatPairsOf
  rw [if_neg hS, List.singleton_append, List.map_cons, joinSep_cons [' '] _ _ (by simp),
    List.append_assoc]
  exact ⟨_, rfl⟩

theorem styleAttrOf_build (m t : Str) (h4 : styleValueOf m t = [] → dataPairsOf m = []) :
    styleAttrOf (buildButton m t) = styleValueOf m t := by
  by_cases hS : styleValueOf m t = []
  · have hdp := h4 hS
    have hA : attrsOf m t = typeW := by
      rw [attrsOf_flat]
      unfold flatPairsOf
      rw [if_pos hS, hdp]
      rfl
    unfold buildButton
    rw [hA, hS]
    have hsh : openSpW ++ (typeW ++ ('>' :: (escapeHtml t ++ closeW))) =
        "<button type=\"button\">".data ++ (escapeHtml t ++ closeW) := rfl
    rw [hsh, styleAttrOf_skip_left _ _ (by decide)]
    apply styleAttrOf_no_quot
    intro hx
    rcases List.mem_append.mp hx with h1 | h1
    · exact quot_not_mem_escapeHtml t h1
    · exact absurd h1 (by decide)
  · obtain ⟨J, hA⟩ := attrsOf_style_head m t hS
    unfold buildButton
    rw [hA, List.append_assoc]
    rw [styleAttrOf_skip_left openSpW _ (by decide),
      styleAttrOf_piece _ _ (quot_not_mem_styleValueOf m t)]

theorem collectAttrs_build (m t : Str) :
    collectAttrs (buildButton m t) = flatPairsOf m t := by
  have hq : '"' ∉ escapeHtml t ++ closeW := by
    intro hx
    rcases List.mem_append.mp hx with h1 | h1
    · exact quot_not_mem_escapeHtml t h1
    · exact absurd h1 (by decide)
  have hsh : buildButton m t =
      "<button".data ++ (' ' :: (attrsOf m t ++ ('>' :: (escapeHtml t ++ closeW)))) := rfl
  rw [hsh, collectAttrs_skip_left _ _ (by decide), attrsOf_flat,
    collectAttrs_chain (flatPairsOf m t) ('>' :: (escapeHtml t ++ closeW))
      (flatPairsOf_ne_nil m t) (flatPairsOf_good m t),
    collectAttrs_cons_skip '>' _ (matchAttrHead_not_ws '>' _ (by decide)),
    collectAttrs_of_no_quot _ hq, List.append_nil]

theorem dataPairsOf_build (m t : Str) :
    dataPairsOf (buildButton m t) =
      (dataPairsOf m).map (fun p => (p.1, escapeAttr p.2)) := by
  show (collectAttrs (buildButton m t)).filter (fun p => startsWithData p.1) = _
  rw [collectAttrs_build]
  unfold flatPairsOf
  rw [List.filter_append, List.filter_append]
  have h1 : ((if styleValueOf m t = [] then []
      else [(styleNameW, styleValueOf m t)]).filter (fun p => startsWithData p.1)) = [] := by
    by_cases hS : styleValueOf m t = []
    · rw [if_pos hS]
      rfl
    · rw [if_neg hS,
        List.filter_cons_of_neg (by show ¬startsWithData styleNameW = true; decide),
        List.filter_nil]
  have h2 : (([(typeNameW, buttonValW)] : List (Str × Str)).filter
      (fun p => startsWithData p.1)) = [] := by decide
  have h3 : (((dataPairsOf m).map (fun p => (p.1, escapeAttr p.2))).filter
      (fun p => startsWithData p.1)) =
      (dataPairsOf m).map (fun p => (p.1, escapeAttr p.2)) := by
    apply List.filter_eq_self.mpr
    intro a ha
    obtain ⟨q, hq, hqe⟩ := List.mem_map.mp ha
    rw [← hqe]
    show startsWithData q.1 = true
    have hq' : q ∈ (collectAttrs m).filter (fun p => startsWithData p.1) := hq
    exact (List.mem_filter.mp hq').2
  rw [h1, h2, h3, List.nil_append, List.append_nil]

/-- C3 counterexample: on `<button data-a="&">T</button>` the emitted
data-attribute value is escaped to `&amp;`, and a second run escapes the
ampersand of the entity again, producing a different button: the coercion
is not idempotent. -/
theorem C3_counterexample :
    coerceSingleButton cex3Html cex3Text = Except.ok cex3Out1 ∧
      coerceSingleButton cex3Out1 cex3Text = Except.ok cex3Out2 ∧
      cex3Out1 ≠ cex3Out2 :=
  ⟨by decide, by decide, by decide⟩

/-- C3 (amended): re-running the coercer on its own output reproduces that
output exactly whenever the first run's harvested material is already in
fixed form: every harvested data-attribute value is unchanged by attribute
escaping, the final style value is unchanged by re-sanitization and by the
empty-label defaults, the style value contains no `<`, and a missing style
attribute comes with no data attributes. -/
theorem C3_conditional_idempotence (html exactText out m : Str) (ms : List Str)
    (hm : buttonMatches html = m :: ms)
    (hc : coerceSingleButton html exactText = Except.ok out)
    (h1 : ∀ p ∈ dataPairsOf m, escapeAttr p.2 = p.2)
    (h2 : sanitizeStyle (styleValueOf m exactText) = styleValueOf m exactText)
    (h3 : '<' ∉ styleValueOf m exactText)
    (h4 : styleValueOf m exactText = [] → dataPairsOf m = [])
    (h5 : trimChars exactText = [] →
      addDefaults (styleValueOf m exactText) = styleValueOf m exactText) :
    coerceSingleButton out exactText = Except.ok out := by
  have hout : out = buildButton m exactText := by
    unfold coerceSingleButton at hc
    rw [hm] at hc
    exact (Except.ok.inj hc).symm
  subst hout
  have hsv : styleValueOf (buildButton m exactText) exactText =
      styleValueOf m exactText := by
    show (if trimChars exactText = [] then
        addDefaults (sanitizeStyle (styleAttrOf (buildButton m exactText)))
      else sanitizeStyle (styleAttrOf (buildButton m exactText))) =
      styleValueOf m exactText
    rw [styleAttrOf_build m exactText h4, h2]
    by_cases ht : trimChars exactText = []
    · rw [if_pos ht, h5 ht]
    · rw [if_neg ht]
  have hdp : dataPairsOf (buildButton m exactText) = dataPairsOf m := by
    rw [dataPairsOf_build]
    have hpt : ∀ p ∈ dataPairsOf m, (fun p => ((p : Str × Str).1, escapeAttr p.2)) p = id p := by
      intro p hp
      show (p.1, escapeAttr p.2) = p
      rw [h1 p hp]
    rw [List.map_congr_left hpt, List.map_id]
  have hda : dataAttrsStr (buildButton m exactText) = dataAttrsStr m := by
    unfold dataAttrsStr
    rw [hdp]
  have hattrs : attrsOf (buildButton m exactText) exactText = attrsOf m exactText := by
    unfold attrsOf
    rw [hsv, hda]
  have hbb : buildButton (buildButton m exactText) exactText = buildButton m exactText := by
    show openSpW ++ (attrsOf (buildButton m exactText) exactText ++
        ('>' :: (escapeHtml exactText ++ closeW))) = buildButton m exactText
    rw [hattrs]
    rfl
  have hmid : '<' ∉ ' ' :: (attrsOf m exactText ++ ('>' :: escapeHtml exactText)) := by
    intro hx
    rcases List.mem_cons.mp hx with h6 | h6
    · exact absurd h6 (by decide)
    · rcases List.mem_append.mp h6 with h7 | h7
      · exact lt_not_mem_attrsOf m exactText h3 h7
      · rcases List.mem_cons.mp h7 with h8 | h8
        · exact absurd h8 (by decide)
        · exact lt_not_mem_escapeHtml exactText h8
  have hshape : buildButton m exactText =
      openW ++ ((' ' :: (attrsOf m exactText ++ ('>' :: escapeHtml exactText))) ++ closeW) := by
    unfold buildButton
    have h0 : openSpW = openW ++ [' '] := rfl
    rw [h0, List.append_assoc]
    congr 1
    simp
  have hbm : buttonMatches (buildButton m exactText) = [buildButton m exactText] := by
    rw [hshape]
    exact buttonMatches_wrap _ hmid
  show (match buttonMatches (buildButton m exactText) with
    | [] => Except.error errNoButton
    | btnTag :: _ => Except.ok (buildButton btnTag exactText)) =
    Except.ok (buildButton m exactText)
  rw [hbm]
  show Except.ok (buildButton (buildButton m exactText) exactText) =
    Except.ok (buildButton m exactText)
  rw [hbb]

/-- C3 witness: a clean output (sanitized style, escape-fixed data value,
non-empty label) is reproduced exactly by a second run. -/
theorem C3_witness : coerceSingleButton wit3Out wit3Text = Except.ok wit3Out :=
  C3_conditional_idempotence wit3Html wit3Text wit3Out wit3Html []
    (by decide) (by decide) (by decide) (by decide) (by decide) (by decide) (by decide)

end ButtonsGen
